import Mathlib

/-!
# team_builder: balanced Compound/Recurve/Barebow team generation

A shallow embedding of `main.cc` and the properties of its three core parts:
the random team generator (`random_team_mapping`), the balance scorer
(`score_team_mapping`) and the search loop of `main`.

Conventions of the embedding

* `unsigned` values are natural numbers; `unsigned` arithmetic is reduced
  modulo `2^32` where the source computes it (`team_score_total`, the
  subtraction in `score_team_mapping`), and the conversion of the `unsigned`
  difference to the `int` return value is two's complement.
* A `std::vector<team_selection>` is a `List team_selection`; a
  `std::map<string,unsigned>` is the list of its entries in iteration order
  (its keys are pairwise distinct, which theorems assume where they need it).
* `random()` is a stream `rnd : Nat → Nat` read at an explicit position.
* Loops that may not terminate take fuel; running out of fuel is the outcome
  `out_of_fuel`. A failed `assert` is the outcome `assert_fail line`.
-/

namespace TeamBuilder

/-! ## Definitions -/

/-- Outcome of running a piece of the program. -/
inductive Outcome (α : Type) where
  /-- normal return -/
  | ok (a : α)
  /-- an `assert` on the given source line failed -/
  | assert_fail (line : Nat)
  /-- behaviour the C++ standard leaves undefined (out-of-bounds read, `% 0`) -/
  | undefined
  /-- the fuel of a loop ran out before the loop exited -/
  | out_of_fuel
  deriving DecidableEq

/-- The record `struct team_selection` (lines 49-58). -/
structure team_selection where
  compound_archer : String
  compound_score : Nat
  recurve_archer : String
  recurve_score : Nat
  barebow_archer : String
  barebow_score : Nat
  deriving DecidableEq

/-- A `std::map<string,unsigned>`: its entries in iteration order. -/
abbrev Roster := List (String × Nat)

/-- The three archery styles, one per global roster and per field pair of a slot. -/
inductive Style where
  | compound
  | recurve
  | barebow
  deriving DecidableEq

/-- The score field of a slot for the given style. -/
def team_selection.score_of : Style → team_selection → Nat
  | .compound, t => t.compound_score
  | .recurve, t => t.recurve_score
  | .barebow, t => t.barebow_score

/-- The archer field of a slot for the given style. -/
def team_selection.archer_of : Style → team_selection → String
  | .compound, t => t.compound_archer
  | .recurve, t => t.recurve_archer
  | .barebow, t => t.barebow_archer

/-- The two assignments `result[ptr].X_archer = idx->first; result[ptr].X_score = idx->second`
(lines 114-115, 127-128, 140-141). -/
def team_selection.put : Style → String → Nat → team_selection → team_selection
  | .compound, name, score, t => { t with compound_archer := name, compound_score := score }
  | .recurve, name, score, t => { t with recurve_archer := name, recurve_score := score }
  | .barebow, name, score, t => { t with barebow_archer := name, barebow_score := score }

/-- The (archer, score) pair a slot holds for the given style. -/
def team_selection.entry_of (k : Style) (t : team_selection) : String × Nat :=
  (t.archer_of k, t.score_of k)

/-- A value-initialised slot, as `vector::resize` creates it. -/
def blank_team : team_selection :=
  { compound_archer := "", compound_score := 0,
    recurve_archer := "", recurve_score := 0,
    barebow_archer := "", barebow_score := 0 }

/-- The first loop of `random_team_mapping` (lines 97-101): all scores are set to 0,
the names are left as they are. -/
def clear_scores (result : List team_selection) : List team_selection :=
  result.map fun t => { t with compound_score := 0, recurve_score := 0, barebow_score := 0 }

/-- The redraw loop (lines 109-112 and its two copies): draw `random() % result.size()`
until the slot drawn has score 0 for the style. Returns the slot index and the position of
the random stream after the draws. One unit of fuel is one draw. -/
def draw_slot (k : Style) (result : List team_selection) (rnd : Nat → Nat) :
    Nat → Nat → Outcome (Nat × Nat)
  | 0, _ => .out_of_fuel
  | fuel + 1, pos =>
    if result.length = 0 then .undefined
    else
      let ptr := rnd pos % result.length
      match result[ptr]? with
      | none => .undefined
      | some t =>
        if t.score_of k ≠ 0 then draw_slot k result rnd fuel (pos + 1)
        else .ok (ptr, pos + 1)

/-- One `for (idx = style_X.begin(); ...)` loop of `random_team_mapping`
(lines 107-116, 120-129, 133-142); `line` is the line of its inner `assert`. -/
def spread (k : Style) (line : Nat) (rnd : Nat → Nat) (fuel : Nat) :
    Roster → List team_selection → Nat → Outcome (List team_selection × Nat)
  | [], result, pos => .ok (result, pos)
  | (name, score) :: rest, result, pos =>
    if score = 0 then .assert_fail line
    else
      match draw_slot k result rnd fuel pos with
      | .ok (ptr, pos1) =>
        match result[ptr]? with
        | none => .undefined
        | some t => spread k line rnd fuel rest (result.set ptr (t.put k name score)) pos1
      | .assert_fail l => .assert_fail l
      | .undefined => .undefined
      | .out_of_fuel => .out_of_fuel

/-- The function `random_team_mapping` (lines 94-143). The three global rosters are
parameters; `result` is the vector passed in, `pos` the position of the random stream.
The third `assert` (line 132) compares with `style_recurve`, as the source does. -/
def random_team_mapping (style_compound style_recurve style_barebow : Roster)
    (result : List team_selection) (rnd : Nat → Nat) (fuel : Nat) (pos : Nat) :
    Outcome (List team_selection × Nat) :=
  let result0 := clear_scores result
  if result0.length ≠ style_compound.length then .assert_fail 106
  else
    match spread .compound 108 rnd fuel style_compound result0 pos with
    | .ok (result1, pos1) =>
      if result1.length ≠ style_recurve.length then .assert_fail 119
      else
        match spread .recurve 121 rnd fuel style_recurve result1 pos1 with
        | .ok (result2, pos2) =>
          if result2.length ≠ style_recurve.length then .assert_fail 132
          else spread .barebow 134 rnd fuel style_barebow result2 pos2
        | .assert_fail l => .assert_fail l
        | .undefined => .undefined
        | .out_of_fuel => .out_of_fuel
    | .assert_fail l => .assert_fail l
    | .undefined => .undefined
    | .out_of_fuel => .out_of_fuel

/-- The function `team_score_total` (lines 145-148): an `unsigned` sum. -/
def team_score_total (team : team_selection) : Nat :=
  (team.compound_score + team.recurve_score + team.barebow_score) % 2 ^ 32

/-- The sum of the three category scores of a slot, without wrap-around. -/
def slot_sum (team : team_selection) : Nat :=
  team.compound_score + team.recurve_score + team.barebow_score

/-- Conversion of an `unsigned` value to `int` (two's complement). -/
def unsigned_to_int (x : Nat) : Int :=
  if x % 2 ^ 32 < 2 ^ 31 then ((x % 2 ^ 32 : Nat) : Int) else ((x % 2 ^ 32 : Nat) : Int) - 2 ^ 32

/-- The `for` loop of `score_team_mapping` (lines 160-164) over the slots from index 1 on;
the state is `(max_score, min_score)`. -/
def score_scan : List team_selection → Nat → Nat → Nat × Nat
  | [], max_score, min_score => (max_score, min_score)
  | team :: rest, max_score, min_score =>
    let use_score := team_score_total team
    let max1 := if use_score > max_score then use_score else max_score
    let min1 := if use_score < min_score then use_score else min_score
    score_scan rest max1 min1

/-- The function `score_team_mapping` (lines 155-167). On an empty vector `teams[0]` is an
out-of-bounds read. The `unsigned` difference is returned as `int`. -/
def score_team_mapping : List team_selection → Outcome Int
  | [] => .undefined
  | team0 :: rest =>
    let max_score := team_score_total team0
    let min_score := max_score
    let r := score_scan rest max_score min_score
    .ok (unsigned_to_int ((r.1 + 2 ^ 32 - r.2) % 2 ^ 32))

/-- The variables of the search loop of `main`. -/
structure SearchState where
  candidate_teams : List team_selection
  candidate_score : Int
  timeout : Int
  deriving DecidableEq

/-- The constant `RESET_TIMEOUT` of `main` (line 205). -/
def RESET_TIMEOUT : Int := 2000000

/-- The body of the search loop after the candidate has been generated and scored
(lines 213-220). -/
def search_trial (reset : Int) (st : SearchState) (use_teams : List team_selection)
    (use_score : Int) : SearchState :=
  if use_score < st.candidate_score then
    { candidate_teams := use_teams, candidate_score := use_score, timeout := reset }
  else
    { st with timeout := st.timeout - 1 }

/-- The search loop `while (timeout > 0)` of `main` (lines 207-221). The call of
`random_team_mapping` on a fresh vector is the generator `gen`, which threads its own
state (the position of the random stream). One unit of fuel is one trial. -/
def search_loop {σ : Type} (reset : Int) (gen : σ → Outcome (List team_selection × σ)) :
    Nat → σ → SearchState → Outcome (SearchState × σ)
  | 0, g, st => if st.timeout > 0 then .out_of_fuel else .ok (st, g)
  | fuel + 1, g, st =>
    if st.timeout > 0 then
      match gen g with
      | .ok (use_teams, g1) =>
        match score_team_mapping use_teams with
        | .ok use_score => search_loop reset gen fuel g1 (search_trial reset st use_teams use_score)
        | .assert_fail l => .assert_fail l
        | .undefined => .undefined
        | .out_of_fuel => .out_of_fuel
      | .assert_fail l => .assert_fail l
      | .undefined => .undefined
      | .out_of_fuel => .out_of_fuel
    else .ok (st, g)

/-- The state of the search loop after at most `n` trials: the loop body is run `n` times,
or fewer when the loop exits earlier. Unlike `search_loop` this needs no fuel, so it
describes every prefix of a run, finished or not. -/
def search_run {σ : Type} (reset : Int) (gen : σ → Outcome (List team_selection × σ)) :
    Nat → σ → SearchState → Outcome (SearchState × σ)
  | 0, g, st => .ok (st, g)
  | n + 1, g, st =>
    if st.timeout > 0 then
      match gen g with
      | .ok (use_teams, g1) =>
        match score_team_mapping use_teams with
        | .ok use_score =>
          search_run reset gen n g1 (search_trial reset st use_teams use_score)
        | .assert_fail l => .assert_fail l
        | .undefined => .undefined
        | .out_of_fuel => .out_of_fuel
      | .assert_fail l => .assert_fail l
      | .undefined => .undefined
      | .out_of_fuel => .out_of_fuel
    else .ok (st, g)

/-- The part of `main` after the three rosters are loaded (lines 191-221), with the
constant `RESET_TIMEOUT` as the parameter `reset` and the function called on lines 198
and 210 as the parameter `generate` (it receives the vector and the position of the random
stream): the two cardinality assertions, the initial candidate, and the search loop.
`fuel` bounds the trials. -/
def main_search_with (reset : Int) (style_compound style_recurve style_barebow : Roster)
    (generate : List team_selection → Nat → Outcome (List team_selection × Nat))
    (fuel : Nat) : Outcome (SearchState × Nat) :=
  if style_compound.length ≠ style_barebow.length then .assert_fail 192
  else if style_compound.length ≠ style_recurve.length then .assert_fail 193
  else
    match generate (List.replicate style_compound.length blank_team) 0 with
    | .ok (candidate_teams, pos) =>
      match score_team_mapping candidate_teams with
      | .ok candidate_score =>
        search_loop reset
          (fun p => generate (List.replicate candidate_teams.length blank_team) p)
          fuel pos
          { candidate_teams := candidate_teams, candidate_score := candidate_score,
            timeout := reset }
      | .assert_fail l => .assert_fail l
      | .undefined => .undefined
      | .out_of_fuel => .out_of_fuel
    | .assert_fail l => .assert_fail l
    | .undefined => .undefined
    | .out_of_fuel => .out_of_fuel

/-- The part of `main` after the three rosters are loaded, calling `random_team_mapping`
on the random stream `rnd`; `gen_fuel` bounds the draws of one redraw loop. -/
def main_search (reset : Int) (style_compound style_recurve style_barebow : Roster)
    (rnd : Nat → Nat) (gen_fuel fuel : Nat) : Outcome (SearchState × Nat) :=
  main_search_with reset style_compound style_recurve style_barebow
    (fun result pos =>
      random_team_mapping style_compound style_recurve style_barebow result rnd gen_fuel pos)
    fuel

/-- The entries placed so far for a style: the (archer, score) pairs of the slots whose
score for the style is not 0, in slot order. -/
def placed (k : Style) (result : List team_selection) : List (String × Nat) :=
  (result.map (team_selection.entry_of k)).filter fun e => e.2 ≠ 0

/-- The per-category bijection between a roster and the slots of an assignment: every slot
holds a non-zero score and the name and score of an entry of the roster, the slots' entries
are the roster's entries up to order, and every entry of the roster is in exactly one
slot. -/
def category_bijection (k : Style) (roster : Roster) (out : List team_selection) : Prop :=
  (∀ t ∈ out, t.score_of k ≠ 0 ∧ t.entry_of k ∈ roster) ∧
  (out.map (team_selection.entry_of k)).Perm roster ∧
  (∀ e ∈ roster, ∃! i : Nat, ∃ t, out[i]? = some t ∧ t.entry_of k = e)

/-- The index of the first slot of a column that holds the entry (the length of the
column when no slot holds it). -/
def slot_index (e : String × Nat) : List (String × Nat) → Nat
  | [] => 0
  | x :: col => if x = e then 0 else slot_index e col + 1

/-- The result of an outcome transformed by a function. -/
def Outcome.map {α β : Type} (f : α → β) : Outcome α → Outcome β
  | .ok a => .ok (f a)
  | .assert_fail l => .assert_fail l
  | .undefined => .undefined
  | .out_of_fuel => .out_of_fuel

/-- The search loop of `main` (`search_loop`) with a log: every candidate generated by a
trial is appended, with its score, to the list `log`. The log is not a variable of the
program; it records the run. -/
def search_loop_log {σ : Type} (reset : Int) (gen : σ → Outcome (List team_selection × σ)) :
    Nat → σ → SearchState → List (List team_selection × Int) →
    Outcome (SearchState × σ × List (List team_selection × Int))
  | 0, g, st, log => if st.timeout > 0 then .out_of_fuel else .ok (st, g, log)
  | fuel + 1, g, st, log =>
    if st.timeout > 0 then
      match gen g with
      | .ok (use_teams, g1) =>
        match score_team_mapping use_teams with
        | .ok use_score =>
          search_loop_log reset gen fuel g1 (search_trial reset st use_teams use_score)
            (log ++ [(use_teams, use_score)])
        | .assert_fail l => .assert_fail l
        | .undefined => .undefined
        | .out_of_fuel => .out_of_fuel
      | .assert_fail l => .assert_fail l
      | .undefined => .undefined
      | .out_of_fuel => .out_of_fuel
    else .ok (st, g, log)

/-- The number of consecutive non-improving trials at the end of a log of trials, where
`best` is the best score and `streak` the number of consecutive non-improving trials
before the log: a trial is improving when its score is less than the best score so far. -/
def streak_after (best : Int) (streak : Nat) : List (List team_selection × Int) → Nat
  | [] => streak
  | (_, use_score) :: rest =>
    if use_score < best then streak_after use_score 0 rest
    else streak_after best (streak + 1) rest

/-- The number of improving trials in a log of trials, `best` being the best score before
the log. -/
def improvements (best : Int) : List (List team_selection × Int) → Nat
  | [] => 0
  | (_, use_score) :: rest =>
    if use_score < best then improvements use_score rest + 1
    else improvements best rest

/-- The state `st` retains the earliest entry of the history `hist` that attains the least
score of the history. -/
def retains_earliest_best (hist : List (List team_selection × Int)) (st : SearchState) :
    Prop :=
  ∃ before later, hist = before ++ (st.candidate_teams, st.candidate_score) :: later ∧
    (∀ x ∈ before, st.candidate_score < x.2) ∧ (∀ x ∈ later, st.candidate_score ≤ x.2)

/-- The characters up to the first NUL of a buffer: the C string that `sscanf` and the
`std::string` constructor read from a `char` array. -/
def c_string (buffer : List Char) : List Char :=
  buffer.takeWhile fun c => c ≠ Char.ofNat 0

/-- The white-space characters of the C locale (`isspace`), which the white-space
directive and `%u` of `sscanf` skip. -/
def is_space (c : Char) : Bool :=
  c = ' ' || c = '\t' || c = '\n' || c = Char.ofNat 11 || c = Char.ofNat 12 || c = '\r'

/-- The decimal digits. -/
def is_digit (c : Char) : Bool :=
  '0' ≤ c && c ≤ '9'

/-- The value of a sequence of decimal digits, `acc` being the value of the digits read
before it; 48 is the code of the digit `0`. -/
def digits_value (acc : Nat) : List Char → Nat
  | [] => acc
  | c :: cs => digits_value (10 * acc + (c.toNat - 48)) cs

/-- The conversion `%u` of `sscanf` into an `unsigned` object, by the C standard: white
space is skipped, then an optionally signed non-empty sequence of decimal digits is read.
`ok none` is a matching or input failure (no digit), `ok (some v)` the value stored. A
value that the `unsigned` object cannot represent (`2^32` or more, or the negation of a
non-zero number) has no defined result. -/
def scan_unsigned (input : List Char) : Outcome (Option Nat) :=
  let s1 := input.dropWhile is_space
  let negative := s1.head? = some '-'
  let s2 := if s1.head? = some '-' ∨ s1.head? = some '+' then s1.tail else s1
  let digits := s2.takeWhile is_digit
  if digits = [] then .ok none
  else
    let v := digits_value 0 digits
    if negative then (if v = 0 then .ok (some 0) else .undefined)
    else if v < 2 ^ 32 then .ok (some v) else .undefined

/-- The call `sscanf(line_buffer, "%[^,], %u", name_buffer, &score)` of line 68, by the C
standard. The result is the return value `rc`, the content of `name_buffer` and `score`
(where a conversion did not take place the object is not written, and the caller does not
read it). `%[^,]` stores the non-empty run of characters before the first comma, without
skipping white space, and overflows `name_buffer[512]` when the run has 512 characters or
more; the comma must follow; white space is skipped; `%u` converts the score. The return
value is `EOF` (-1) on an empty input, else the number of conversions made. -/
def sscanf_name_score (line_buffer : List Char) : Outcome (Int × List Char × Nat) :=
  let s := c_string line_buffer
  if s = [] then .ok (-1, [], 0)
  else
    let name := s.takeWhile fun c => c ≠ ','
    if name = [] then .ok (0, [], 0)
    else if 512 ≤ name.length then .undefined
    else
      match s.dropWhile fun c => c ≠ ',' with
      | [] => .ok (1, name, 0)
      | _ :: after =>
        match scan_unsigned after with
        | .ok none => .ok (1, name, 0)
        | .ok (some v) => .ok (2, name, v)
        | .assert_fail l => .assert_fail l
        | .undefined => .undefined
        | .out_of_fuel => .out_of_fuel

/-- The characters of the set `" \t\r\n"` that line 74 and line 77 search for. -/
def is_trim_char (c : Char) : Bool :=
  c = ' ' || c = '\t' || c = '\r' || c = '\n'

/-- The call `find_first_not_of(" \t\r\n")`: the index of the first character outside the
set, `none` for `string::npos`. -/
def find_first_not_of : List Char → Option Nat
  | [] => none
  | c :: cs => if is_trim_char c then (find_first_not_of cs).map (· + 1) else some 0

/-- The call `find_last_not_of(" \t\r\n")`: the index of the last character outside the
set, `none` for `string::npos`. -/
def find_last_not_of : List Char → Option Nat
  | [] => none
  | c :: cs =>
    match find_last_not_of cs with
    | some i => some (i + 1)
    | none => if is_trim_char c then none else some 0

/-- Lines 72-78 of `load_style_list`: `use_name` is made from `name_buffer`,
`erase(0, ptr)` removes the characters before the first one outside the set (all of them
when `ptr` is `npos`), and `erase(ptr+1)` the characters after the last one outside the
set (none when `ptr` is `npos`). -/
def trim_name (name_buffer : List Char) : List Char :=
  let use_name := c_string name_buffer
  let use_name1 :=
    match find_first_not_of use_name with
    | none => []
    | some ptr => use_name.drop ptr
  match find_last_not_of use_name1 with
  | none => use_name1
  | some ptr => use_name1.take (ptr + 1)

/-- The comparison `operator<` of `std::string`, the order of the keys of the rosters:
lexicographic by character. -/
def string_less : List Char → List Char → Bool
  | _, [] => false
  | [], _ :: _ => true
  | a :: s, b :: t =>
    if a.toNat < b.toNat then true
    else if a.toNat = b.toNat then string_less s t
    else false

/-- The assignment `table[key] = value` on a `std::map<string,unsigned>`, whose entries are
kept in the order of their keys: the value of an existing key is replaced, a new key is
inserted at its place. -/
def map_assign : Roster → String → Nat → Roster
  | [], key, value => [(key, value)]
  | (key0, value0) :: rest, key, value =>
    if string_less key.data key0.data then (key, value) :: (key0, value0) :: rest
    else if key = key0 then (key, value) :: rest
    else (key0, value0) :: map_assign rest key value

/-- The value a `std::map<string,unsigned>` holds for a key, if any. -/
def map_find : Roster → String → Option Nat
  | [], _ => none
  | (key0, value0) :: rest, key => if key0 = key then some value0 else map_find rest key

/-- The function `load_style_list` (lines 61-87). `lines` is the sequence of contents of
`line_buffer` that the calls of `fgets` deliver, up to the end of the file; the warning
written to `cerr` is not modelled. -/
def load_style_list (table : Roster) : List String → Outcome Roster
  | [] => .ok table
  | line_buffer :: lines =>
    match sscanf_name_score line_buffer.toList with
    | .ok (rc, name_buffer, score) =>
      if rc ≠ 2 then .assert_fail 69
      else
        let use_name := trim_name name_buffer
        if score = 0 then load_style_list table lines
        else load_style_list (map_assign table (String.mk use_name) score) lines
    | .assert_fail l => .assert_fail l
    | .undefined => .undefined
    | .out_of_fuel => .out_of_fuel

/-! ## Theorems -/

/-! ### The balance scorer -/

theorem team_score_total_lt (t : team_selection) : team_score_total t < 2 ^ 32 := by
  unfold team_score_total
  exact Nat.mod_lt _ (by norm_num)

theorem team_score_total_eq_slot_sum (t : team_selection) (h : slot_sum t < 2 ^ 32) :
    team_score_total t = slot_sum t := by
  unfold team_score_total slot_sum at *
  exact Nat.mod_eq_of_lt h

/-- The first component of the loop state is the largest total seen. -/
theorem score_scan_max (rest : List team_selection) :
    ∀ mx mn : Nat, mx ≤ (score_scan rest mx mn).1 ∧
      (∀ t ∈ rest, team_score_total t ≤ (score_scan rest mx mn).1) ∧
      ((score_scan rest mx mn).1 = mx ∨
        ∃ t ∈ rest, (score_scan rest mx mn).1 = team_score_total t) := by
  induction rest with
  | nil => intro mx mn; simp [score_scan]
  | cons t rest ih =>
    intro mx mn
    simp only [score_scan]
    by_cases h : team_score_total t > mx
    · obtain ⟨h1, h2, h3⟩ := ih (team_score_total t) (if team_score_total t < mn then team_score_total t else mn)
      simp only [h, if_true]
      refine ⟨by omega, ?_, ?_⟩
      · intro u hu
        rcases List.mem_cons.1 hu with rfl | hu
        · exact h1
        · exact h2 u hu
      · rcases h3 with h3 | ⟨u, hu, h3⟩
        · exact Or.inr ⟨t, List.mem_cons_self _ _, h3⟩
        · exact Or.inr ⟨u, List.mem_cons_of_mem _ hu, h3⟩
    · obtain ⟨h1, h2, h3⟩ := ih mx (if team_score_total t < mn then team_score_total t else mn)
      simp only [h, if_false]
      refine ⟨h1, ?_, ?_⟩
      · intro u hu
        rcases List.mem_cons.1 hu with rfl | hu
        · omega
        · exact h2 u hu
      · rcases h3 with h3 | ⟨u, hu, h3⟩
        · exact Or.inl h3
        · exact Or.inr ⟨u, List.mem_cons_of_mem _ hu, h3⟩

/-- The second component of the loop state is the smallest total seen. -/
theorem score_scan_min (rest : List team_selection) :
    ∀ mx mn : Nat, (score_scan rest mx mn).2 ≤ mn ∧
      (∀ t ∈ rest, (score_scan rest mx mn).2 ≤ team_score_total t) ∧
      ((score_scan rest mx mn).2 = mn ∨
        ∃ t ∈ rest, (score_scan rest mx mn).2 = team_score_total t) := by
  induction rest with
  | nil => intro mx mn; simp [score_scan]
  | cons t rest ih =>
    intro mx mn
    simp only [score_scan]
    by_cases h : team_score_total t < mn
    · obtain ⟨h1, h2, h3⟩ := ih (if team_score_total t > mx then team_score_total t else mx) (team_score_total t)
      simp only [h, if_true]
      refine ⟨by omega, ?_, ?_⟩
      · intro u hu
        rcases List.mem_cons.1 hu with rfl | hu
        · exact h1
        · exact h2 u hu
      · rcases h3 with h3 | ⟨u, hu, h3⟩
        · exact Or.inr ⟨t, List.mem_cons_self _ _, h3⟩
        · exact Or.inr ⟨u, List.mem_cons_of_mem _ hu, h3⟩
    · obtain ⟨h1, h2, h3⟩ := ih (if team_score_total t > mx then team_score_total t else mx) mn
      simp only [h, if_false]
      refine ⟨h1, ?_, ?_⟩
      · intro u hu
        rcases List.mem_cons.1 hu with rfl | hu
        · omega
        · exact h2 u hu
      · rcases h3 with h3 | ⟨u, hu, h3⟩
        · exact Or.inl h3
        · exact Or.inr ⟨u, List.mem_cons_of_mem _ hu, h3⟩

/-- The scorer on a non-empty vector: the 32-bit difference of the largest and the
smallest 32-bit slot total, converted to `int`. -/
theorem score_team_mapping_spec (teams : List team_selection) (hne : teams ≠ []) :
    ∃ hi ∈ teams, ∃ lo ∈ teams,
      (∀ t ∈ teams, team_score_total lo ≤ team_score_total t ∧
        team_score_total t ≤ team_score_total hi) ∧
      score_team_mapping teams =
        .ok (unsigned_to_int (team_score_total hi - team_score_total lo)) := by
  cases teams with
  | nil => exact absurd rfl hne
  | cons t0 rest =>
    obtain ⟨a1, a2, a3⟩ := score_scan_max rest (team_score_total t0) (team_score_total t0)
    obtain ⟨b1, b2, b3⟩ := score_scan_min rest (team_score_total t0) (team_score_total t0)
    have hhi : ∃ hi ∈ t0 :: rest,
        (score_scan rest (team_score_total t0) (team_score_total t0)).1 = team_score_total hi := by
      rcases a3 with h | ⟨u, hu, h⟩
      · exact ⟨t0, List.mem_cons_self _ _, h⟩
      · exact ⟨u, List.mem_cons_of_mem _ hu, h⟩
    have hlo : ∃ lo ∈ t0 :: rest,
        (score_scan rest (team_score_total t0) (team_score_total t0)).2 = team_score_total lo := by
      rcases b3 with h | ⟨u, hu, h⟩
      · exact ⟨t0, List.mem_cons_self _ _, h⟩
      · exact ⟨u, List.mem_cons_of_mem _ hu, h⟩
    obtain ⟨hi, hhi, ehi⟩ := hhi
    obtain ⟨lo, hlo, elo⟩ := hlo
    refine ⟨hi, hhi, lo, hlo, ?_, ?_⟩
    · intro t ht
      rcases List.mem_cons.1 ht with rfl | ht
      · exact ⟨elo ▸ b1, ehi ▸ a1⟩
      · exact ⟨elo ▸ b2 t ht, ehi ▸ a2 t ht⟩
    · have hle : team_score_total lo ≤ team_score_total hi := by
        rw [← elo, ← ehi]; omega
      have hlt := team_score_total_lt hi
      simp only [score_team_mapping, ehi, elo]
      congr 2
      omega

theorem unsigned_to_int_of_lt (x : Nat) (h : x < 2 ^ 31) : unsigned_to_int x = (x : Int) := by
  unfold unsigned_to_int
  have : x % 2 ^ 32 = x := Nat.mod_eq_of_lt (by omega)
  rw [this, if_pos h]

theorem unsigned_to_int_eq_zero (x : Nat) (h : x < 2 ^ 32) : unsigned_to_int x = 0 ↔ x = 0 := by
  unfold unsigned_to_int
  have : x % 2 ^ 32 = x := Nat.mod_eq_of_lt h
  rw [this]
  split <;> omega

/-- C2 (as amended). For every non-empty assignment in which no slot sum reaches `2^32`
and no two slot sums differ by `2^31` or more, `score_team_mapping` returns the largest slot
sum minus the smallest slot sum; slot sums 60, 60, 60 give 0 and slot sums 50, 60, 70
give 20. -/
theorem score_team_mapping_range :
    (∀ teams : List team_selection, teams ≠ [] →
      (∀ t ∈ teams, slot_sum t < 2 ^ 32) →
      (∀ a ∈ teams, ∀ b ∈ teams, slot_sum a < slot_sum b + 2 ^ 31) →
      ∃ hi ∈ teams, ∃ lo ∈ teams,
        (∀ t ∈ teams, slot_sum lo ≤ slot_sum t ∧ slot_sum t ≤ slot_sum hi) ∧
        score_team_mapping teams = .ok ((slot_sum hi : Int) - (slot_sum lo : Int))) ∧
    (∀ a b c : team_selection, slot_sum a = 60 → slot_sum b = 60 → slot_sum c = 60 →
      score_team_mapping [a, b, c] = .ok 0) ∧
    (∀ a b c : team_selection, slot_sum a = 50 → slot_sum b = 60 → slot_sum c = 70 →
      score_team_mapping [a, b, c] = .ok 20) := by
  have key : ∀ teams : List team_selection, teams ≠ [] →
      (∀ t ∈ teams, slot_sum t < 2 ^ 32) →
      (∀ a ∈ teams, ∀ b ∈ teams, slot_sum a < slot_sum b + 2 ^ 31) →
      ∃ hi ∈ teams, ∃ lo ∈ teams,
        (∀ t ∈ teams, slot_sum lo ≤ slot_sum t ∧ slot_sum t ≤ slot_sum hi) ∧
        score_team_mapping teams = .ok ((slot_sum hi : Int) - (slot_sum lo : Int)) := by
    intro teams hne h32 h31
    obtain ⟨hi, hhi, lo, hlo, hb, hs⟩ := score_team_mapping_spec teams hne
    have ehi := team_score_total_eq_slot_sum hi (h32 hi hhi)
    have elo := team_score_total_eq_slot_sum lo (h32 lo hlo)
    refine ⟨hi, hhi, lo, hlo, ?_, ?_⟩
    · intro t ht
      have et := team_score_total_eq_slot_sum t (h32 t ht)
      have := hb t ht
      rw [ehi, elo, et] at this
      exact this
    · have hle : slot_sum lo ≤ slot_sum hi := by
        have := (hb hi hhi).1
        rw [ehi, elo] at this
        exact this
      have hd := h31 hi hhi lo hlo
      rw [hs, ehi, elo, unsigned_to_int_of_lt _ (by omega)]
      congr 1
      omega
  refine ⟨key, ?_, ?_⟩
  · intro a b c ha hb hc
    obtain ⟨hi, hhi, lo, hlo, -, hs⟩ := key [a, b, c] (by simp)
      (by intro t ht; simp at ht; rcases ht with rfl | rfl | rfl <;> omega)
      (by
        intro x hx y hy
        simp at hx hy
        rcases hx with rfl | rfl | rfl <;> rcases hy with rfl | rfl | rfl <;> omega)
    rw [hs]
    simp at hhi hlo
    rcases hhi with rfl | rfl | rfl <;> rcases hlo with rfl | rfl | rfl <;> simp [ha, hb, hc]
  · intro a b c ha hb hc
    obtain ⟨hi, hhi, lo, hlo, hbd, hs⟩ := key [a, b, c] (by simp)
      (by intro t ht; simp at ht; rcases ht with rfl | rfl | rfl <;> omega)
      (by
        intro x hx y hy
        simp at hx hy
        rcases hx with rfl | rfl | rfl <;> rcases hy with rfl | rfl | rfl <;> omega)
    have h1 := hbd a (by simp)
    have h3 := hbd c (by simp)
    rw [hs]
    simp at hhi hlo
    rcases hhi with rfl | rfl | rfl <;> rcases hlo with rfl | rfl | rfl <;>
      first
        | (exfalso; omega)
        | simp [ha, hb, hc]

/-- Witness of C2: three slots with sums 60, 50 and 70. -/
theorem score_team_mapping_range_witness :
    ∃ hi ∈ [(⟨"A", 10, "B", 20, "C", 30⟩ : team_selection), ⟨"D", 20, "E", 20, "F", 10⟩,
        ⟨"G", 30, "H", 20, "I", 20⟩],
      ∃ lo ∈ [(⟨"A", 10, "B", 20, "C", 30⟩ : team_selection), ⟨"D", 20, "E", 20, "F", 10⟩,
        ⟨"G", 30, "H", 20, "I", 20⟩],
        (∀ t ∈ [(⟨"A", 10, "B", 20, "C", 30⟩ : team_selection), ⟨"D", 20, "E", 20, "F", 10⟩,
          ⟨"G", 30, "H", 20, "I", 20⟩], slot_sum lo ≤ slot_sum t ∧ slot_sum t ≤ slot_sum hi) ∧
        score_team_mapping [⟨"A", 10, "B", 20, "C", 30⟩, ⟨"D", 20, "E", 20, "F", 10⟩,
          ⟨"G", 30, "H", 20, "I", 20⟩] = .ok ((slot_sum hi : Int) - (slot_sum lo : Int)) :=
  score_team_mapping_range.1 _ (by decide) (by decide) (by decide)

/-- Counterexample to C2 as stated. With the `unsigned` scores `4294967295, 1, 1` in one
slot and `1, 1, 1` in the other the sums are `4294967297` and `3`, and the scorer returns
`2`; with `2147483649, 1, 1` and `1, 1, 1` no sum wraps, the sums differ by `2^31`, and
the scorer returns `-2147483648`. In neither case is the result the largest sum minus the
smallest. -/
theorem score_team_mapping_range_counterexample :
    (score_team_mapping [⟨"A", 4294967295, "B", 1, "C", 1⟩, ⟨"D", 1, "E", 1, "F", 1⟩] = .ok 2 ∧
      ¬ ∃ hi ∈ [(⟨"A", 4294967295, "B", 1, "C", 1⟩ : team_selection), ⟨"D", 1, "E", 1, "F", 1⟩],
        ∃ lo ∈ [(⟨"A", 4294967295, "B", 1, "C", 1⟩ : team_selection), ⟨"D", 1, "E", 1, "F", 1⟩],
          (∀ t ∈ [(⟨"A", 4294967295, "B", 1, "C", 1⟩ : team_selection),
            ⟨"D", 1, "E", 1, "F", 1⟩], slot_sum lo ≤ slot_sum t ∧ slot_sum t ≤ slot_sum hi) ∧
          score_team_mapping [⟨"A", 4294967295, "B", 1, "C", 1⟩, ⟨"D", 1, "E", 1, "F", 1⟩] =
            .ok ((slot_sum hi : Int) - (slot_sum lo : Int))) ∧
    (score_team_mapping [⟨"A", 2147483649, "B", 1, "C", 1⟩, ⟨"D", 1, "E", 1, "F", 1⟩] =
        .ok (-2147483648) ∧
      ¬ ∃ hi ∈ [(⟨"A", 2147483649, "B", 1, "C", 1⟩ : team_selection), ⟨"D", 1, "E", 1, "F", 1⟩],
        ∃ lo ∈ [(⟨"A", 2147483649, "B", 1, "C", 1⟩ : team_selection), ⟨"D", 1, "E", 1, "F", 1⟩],
          (∀ t ∈ [(⟨"A", 2147483649, "B", 1, "C", 1⟩ : team_selection),
            ⟨"D", 1, "E", 1, "F", 1⟩], slot_sum lo ≤ slot_sum t ∧ slot_sum t ≤ slot_sum hi) ∧
          score_team_mapping [⟨"A", 2147483649, "B", 1, "C", 1⟩, ⟨"D", 1, "E", 1, "F", 1⟩] =
            .ok ((slot_sum hi : Int) - (slot_sum lo : Int))) := by
  decide

/-- The scorer returns 0 exactly when all 32-bit slot totals agree. -/
theorem score_team_mapping_zero_iff_totals (teams : List team_selection) (hne : teams ≠ []) :
    score_team_mapping teams = .ok 0 ↔
      ∀ a ∈ teams, ∀ b ∈ teams, team_score_total a = team_score_total b := by
  obtain ⟨hi, hhi, lo, hlo, hb, hs⟩ := score_team_mapping_spec teams hne
  have hlt := team_score_total_lt hi
  rw [hs]
  constructor
  · intro h a ha b hb1
    have h0 : unsigned_to_int (team_score_total hi - team_score_total lo) = 0 := by
      injection h
    have hz := (unsigned_to_int_eq_zero _ (by omega)).1 h0
    have h1 := hb a ha
    have h2 := hb b hb1
    omega
  · intro h
    have := h hi hhi lo hlo
    rw [this, Nat.sub_self]
    rfl

/-- C5 (as amended). For every non-empty assignment in which no slot sum reaches `2^32`,
`score_team_mapping` returns 0 if and only if all slots have the same sum of their three
category scores. -/
theorem score_team_mapping_zero_iff (teams : List team_selection) (hne : teams ≠ [])
    (h32 : ∀ t ∈ teams, slot_sum t < 2 ^ 32) :
    score_team_mapping teams = .ok 0 ↔ ∀ a ∈ teams, ∀ b ∈ teams, slot_sum a = slot_sum b := by
  rw [score_team_mapping_zero_iff_totals teams hne]
  constructor
  · intro h a ha b hb
    have := h a ha b hb
    rwa [team_score_total_eq_slot_sum a (h32 a ha),
      team_score_total_eq_slot_sum b (h32 b hb)] at this
  · intro h a ha b hb
    rw [team_score_total_eq_slot_sum a (h32 a ha), team_score_total_eq_slot_sum b (h32 b hb)]
    exact h a ha b hb

/-- Witness of C5: two slots with the sums 60 and 50; the score is not 0. -/
theorem score_team_mapping_zero_iff_witness :
    score_team_mapping [⟨"A", 10, "B", 20, "C", 30⟩, ⟨"D", 20, "E", 20, "F", 10⟩] = .ok 0 ↔
      ∀ a ∈ [(⟨"A", 10, "B", 20, "C", 30⟩ : team_selection), ⟨"D", 20, "E", 20, "F", 10⟩],
        ∀ b ∈ [(⟨"A", 10, "B", 20, "C", 30⟩ : team_selection), ⟨"D", 20, "E", 20, "F", 10⟩],
          slot_sum a = slot_sum b :=
  score_team_mapping_zero_iff _ (by decide) (by decide)

/-- Counterexample to C5 as stated. The slot with the `unsigned` scores `4294967295, 2, 2`
has the sum `4294967299`, the slot with `1, 1, 1` the sum `3`; the sums differ and the
scorer returns 0. -/
theorem score_team_mapping_zero_iff_counterexample :
    score_team_mapping [⟨"A", 4294967295, "B", 2, "C", 2⟩, ⟨"D", 1, "E", 1, "F", 1⟩] = .ok 0 ∧
    ¬ ∀ a ∈ [(⟨"A", 4294967295, "B", 2, "C", 2⟩ : team_selection), ⟨"D", 1, "E", 1, "F", 1⟩],
        ∀ b ∈ [(⟨"A", 4294967295, "B", 2, "C", 2⟩ : team_selection), ⟨"D", 1, "E", 1, "F", 1⟩],
          slot_sum a = slot_sum b := by
  decide

/-- C6 (the code at the failing input). All category scores are `unsigned` 32-bit values,
no slot sum wraps, and `score_team_mapping` returns the negative number `-2147483648`:
the difference `2^31` of the two totals does not fit the `int` return type. -/
theorem score_team_mapping_negative :
    (∀ t ∈ [(⟨"A", 2147483648, "B", 2, "C", 2⟩ : team_selection), ⟨"D", 2, "E", 1, "F", 1⟩],
      t.compound_score < 2 ^ 32 ∧ t.recurve_score < 2 ^ 32 ∧ t.barebow_score < 2 ^ 32 ∧
      slot_sum t < 2 ^ 32) ∧
    score_team_mapping [⟨"A", 2147483648, "B", 2, "C", 2⟩, ⟨"D", 2, "E", 1, "F", 1⟩] =
      .ok (-2147483648) ∧
    ¬ ∀ v : Int, score_team_mapping [⟨"A", 2147483648, "B", 2, "C", 2⟩,
      ⟨"D", 2, "E", 1, "F", 1⟩] = .ok v → 0 ≤ v := by
  refine ⟨by decide, by decide, ?_⟩
  intro h
  have := h (-2147483648) (by decide)
  omega

/-- C7. `score_team_mapping` is invariant under permutation of the slots: a non-empty
assignment and any reordering of it have the same score. -/
theorem score_team_mapping_perm (teams teams1 : List team_selection) (hne : teams ≠ [])
    (hp : teams.Perm teams1) : score_team_mapping teams1 = score_team_mapping teams := by
  have hne1 : teams1 ≠ [] := by
    intro h
    rw [h] at hp
    exact hne hp.eq_nil
  obtain ⟨hi, hhi, lo, hlo, hb, hs⟩ := score_team_mapping_spec teams hne
  obtain ⟨hi1, hhi1, lo1, hlo1, hb1, hs1⟩ := score_team_mapping_spec teams1 hne1
  have e1 : team_score_total hi1 = team_score_total hi := by
    have a := (hb hi1 (hp.mem_iff.2 hhi1)).2
    have b := (hb1 hi (hp.mem_iff.1 hhi)).2
    omega
  have e2 : team_score_total lo1 = team_score_total lo := by
    have a := (hb lo1 (hp.mem_iff.2 hlo1)).1
    have b := (hb1 lo (hp.mem_iff.1 hlo)).1
    omega
  rw [hs, hs1, e1, e2]

/-- Witness of C7: a three-slot assignment and its reversal. -/
theorem score_team_mapping_perm_witness :
    score_team_mapping [⟨"G", 30, "H", 20, "I", 20⟩, ⟨"D", 20, "E", 20, "F", 10⟩,
        ⟨"A", 10, "B", 20, "C", 30⟩] =
      score_team_mapping [⟨"A", 10, "B", 20, "C", 30⟩, ⟨"D", 20, "E", 20, "F", 10⟩,
        ⟨"G", 30, "H", 20, "I", 20⟩] :=
  score_team_mapping_perm _ _ (by decide) (List.reverse_perm _).symm

/-- C9 (as amended). `score_team_mapping` contains no assertion and checks nothing: it
returns a score for every non-empty assignment, whatever the category scores of its slots
(a zero score is added like any other), and only when the assignment has no slot does it
return no score, the read of `teams[0]` being out of bounds. -/
theorem score_team_mapping_unchecked :
    (∀ (teams : List team_selection) (line : Nat),
      score_team_mapping teams ≠ .assert_fail line) ∧
    (∀ teams : List team_selection, teams ≠ [] → ∃ v, score_team_mapping teams = .ok v) ∧
    score_team_mapping [] = .undefined := by
  refine ⟨?_, ?_, rfl⟩
  · intro teams line
    cases teams <;> simp [score_team_mapping]
  · intro teams hne
    cases teams with
    | nil => exact absurd rfl hne
    | cons t rest => exact ⟨_, rfl⟩

/-- Witness of C9: an assignment whose only slot is blank is scored. -/
theorem score_team_mapping_unchecked_witness :
    ∃ v, score_team_mapping [blank_team] = .ok v :=
  score_team_mapping_unchecked.2.1 [blank_team] (by decide)

/-- Counterexample to C9 as stated. The first slot has the barebow score 0 (the empty
sentinel) and the scorer returns the score 0 instead of failing. -/
theorem score_team_mapping_unchecked_counterexample :
    (∃ t ∈ [(⟨"A", 10, "B", 20, "", 0⟩ : team_selection), ⟨"C", 10, "D", 5, "E", 15⟩],
      t.compound_score = 0 ∨ t.recurve_score = 0 ∨ t.barebow_score = 0) ∧
    score_team_mapping [⟨"A", 10, "B", 20, "", 0⟩, ⟨"C", 10, "D", 5, "E", 15⟩] = .ok 0 := by
  decide

/-! ### The search loop -/

theorem unsigned_to_int_ge (x : Nat) : -2 ^ 31 ≤ unsigned_to_int x := by
  unfold unsigned_to_int
  have : x % 2 ^ 32 < 2 ^ 32 := Nat.mod_lt _ (by norm_num)
  split <;> omega

/-- Every score the scorer returns is a 32-bit `int`, so it is at least `-2^31`. -/
theorem score_team_mapping_ge (teams : List team_selection) (s : Int)
    (h : score_team_mapping teams = .ok s) : -2 ^ 31 ≤ s := by
  cases teams with
  | nil => simp [score_team_mapping] at h
  | cons t rest =>
    simp only [score_team_mapping, Outcome.ok.injEq] at h
    rw [← h]
    exact unsigned_to_int_ge _

theorem search_trial_score (reset : Int) (st : SearchState) (use_teams : List team_selection)
    (use_score : Int) :
    (search_trial reset st use_teams use_score).candidate_score =
      min st.candidate_score use_score := by
  unfold search_trial
  split
  · rename_i h
    simp only
    omega
  · rename_i h
    simp only
    omega

theorem search_loop_succ {σ : Type} (reset : Int) (gen : σ → Outcome (List team_selection × σ))
    (fuel : Nat) (g g1 : σ) (st : SearchState) (use_teams : List team_selection)
    (use_score : Int) (hpos : st.timeout > 0) (hgen : gen g = .ok (use_teams, g1))
    (hscore : score_team_mapping use_teams = .ok use_score) :
    search_loop reset gen (fuel + 1) g st =
      search_loop reset gen fuel g1 (search_trial reset st use_teams use_score) := by
  simp only [search_loop, hpos, if_true, hgen, hscore]

theorem search_loop_score_le {σ : Type} (reset : Int)
    (gen : σ → Outcome (List team_selection × σ)) :
    ∀ (fuel : Nat) (g : σ) (st : SearchState) (st1 : SearchState) (g1 : σ),
      search_loop reset gen fuel g st = .ok (st1, g1) →
      st1.candidate_score ≤ st.candidate_score ∧ st1.timeout ≤ 0 := by
  intro fuel
  induction fuel with
  | zero =>
    intro g st st1 g1 h
    simp only [search_loop] at h
    split at h
    · cases h
    · rename_i hpos
      simp only [Outcome.ok.injEq, Prod.mk.injEq] at h
      obtain ⟨rfl, -⟩ := h
      exact ⟨le_refl _, by omega⟩
  | succ fuel ih =>
    intro g st st1 g1 h
    simp only [search_loop] at h
    split at h
    · split at h
      · split at h
        · rename_i use_teams g2 _ use_score _
          have := ih _ _ _ _ h
          rw [search_trial_score] at this
          exact ⟨by omega, this.2⟩
        all_goals cases h
      all_goals cases h
    · rename_i hpos
      simp only [Outcome.ok.injEq, Prod.mk.injEq] at h
      obtain ⟨rfl, -⟩ := h
      exact ⟨le_refl _, by omega⟩

theorem search_run_score_le {σ : Type} (reset : Int)
    (gen : σ → Outcome (List team_selection × σ)) :
    ∀ (n : Nat) (g : σ) (st : SearchState) (st1 : SearchState) (g1 : σ),
      search_run reset gen n g st = .ok (st1, g1) →
      st1.candidate_score ≤ st.candidate_score := by
  intro n
  induction n with
  | zero =>
    intro g st st1 g1 h
    simp only [search_run, Outcome.ok.injEq, Prod.mk.injEq] at h
    obtain ⟨rfl, -⟩ := h
    exact le_refl _
  | succ n ih =>
    intro g st st1 g1 h
    simp only [search_run] at h
    split at h
    · split at h
      · split at h
        · have := ih _ _ _ _ h
          rw [search_trial_score] at this
          omega
        all_goals cases h
      all_goals cases h
    · simp only [Outcome.ok.injEq, Prod.mk.injEq] at h
      obtain ⟨rfl, -⟩ := h
      exact le_refl _

/-- A run of `m + n` trials is a run of `m` trials followed by a run of `n` trials. -/
theorem search_run_add {σ : Type} (reset : Int)
    (gen : σ → Outcome (List team_selection × σ)) :
    ∀ (m n : Nat) (g : σ) (st : SearchState) (st1 : SearchState) (g1 : σ),
      search_run reset gen (m + n) g st = .ok (st1, g1) →
      ∃ st0 g0, search_run reset gen m g st = .ok (st0, g0) ∧
        search_run reset gen n g0 st0 = .ok (st1, g1) := by
  intro m
  induction m with
  | zero =>
    intro n g st st1 g1 h
    rw [Nat.zero_add] at h
    exact ⟨st, g, rfl, h⟩
  | succ m ih =>
    intro n g st st1 g1 h
    rw [Nat.add_right_comm] at h
    by_cases hpos : st.timeout > 0
    · cases hg : gen g with
      | ok r =>
        obtain ⟨use_teams, g2⟩ := r
        cases hs : score_team_mapping use_teams with
        | ok use_score =>
          simp only [search_run, hpos, if_true, hg, hs] at h ⊢
          exact ih _ _ _ _ _ h
        | assert_fail l => simp [search_run, hpos, hg, hs] at h
        | undefined => simp [search_run, hpos, hg, hs] at h
        | out_of_fuel => simp [search_run, hpos, hg, hs] at h
      | assert_fail l => simp [search_run, hpos, hg] at h
      | undefined => simp [search_run, hpos, hg] at h
      | out_of_fuel => simp [search_run, hpos, hg] at h
    · simp only [search_run, hpos, if_false] at h ⊢
      refine ⟨st, g, rfl, ?_⟩
      rw [← h]
      cases n with
      | zero => rfl
      | succ n => simp only [search_run, hpos, if_false]

/-- C3. The search loop never accepts a worse candidate. One trial leaves the minimum of
the previous best score and the candidate's score as the best score, which is therefore at
most the previous best; along a run the best score after `n` trials is at most the best
score after `m` trials whenever `m ≤ n`; the score the loop returns is at most the score
it started with; and the score `main` ends with is at most the score of the initial
assignment. -/
theorem search_never_accepts_worse {σ : Type} (reset : Int)
    (gen : σ → Outcome (List team_selection × σ)) :
    (∀ (st : SearchState) (use_teams : List team_selection) (use_score : Int),
      (search_trial reset st use_teams use_score).candidate_score =
        min st.candidate_score use_score ∧
      (search_trial reset st use_teams use_score).candidate_score ≤ st.candidate_score) ∧
    (∀ (m n : Nat) (g : σ) (st sm sn : SearchState) (gm gn : σ), m ≤ n →
      search_run reset gen m g st = .ok (sm, gm) →
      search_run reset gen n g st = .ok (sn, gn) →
      sn.candidate_score ≤ sm.candidate_score) ∧
    (∀ (fuel : Nat) (g : σ) (st st1 : SearchState) (g1 : σ),
      search_loop reset gen fuel g st = .ok (st1, g1) →
      st1.candidate_score ≤ st.candidate_score) ∧
    (∀ (style_compound style_recurve style_barebow : Roster)
      (generate : List team_selection → Nat → Outcome (List team_selection × Nat))
      (fuel : Nat) (st : SearchState) (p : Nat),
      main_search_with reset style_compound style_recurve style_barebow generate fuel =
        .ok (st, p) →
      ∃ teams0 pos0 score0,
        generate (List.replicate style_compound.length blank_team) 0 = .ok (teams0, pos0) ∧
        score_team_mapping teams0 = .ok score0 ∧ st.candidate_score ≤ score0) := by
  refine ⟨?_, ?_, ?_, ?_⟩
  · intro st use_teams use_score
    have h := search_trial_score reset st use_teams use_score
    exact ⟨h, by rw [h]; exact min_le_left _ _⟩
  · intro m n g st sm sn gm gn hmn hm hn
    obtain ⟨d, rfl⟩ := Nat.exists_eq_add_of_le hmn
    obtain ⟨st0, g0, h0, h1⟩ := search_run_add reset gen m d g st sn gn hn
    rw [hm] at h0
    simp only [Outcome.ok.injEq, Prod.mk.injEq] at h0
    obtain ⟨rfl, rfl⟩ := h0
    exact search_run_score_le reset gen d _ _ _ _ h1
  · intro fuel g st st1 g1 h
    exact (search_loop_score_le reset gen fuel g st st1 g1 h).1
  · intro c r b generate fuel st p h
    unfold main_search_with at h
    split at h
    · cases h
    · split at h
      · cases h
      · cases hg : generate (List.replicate c.length blank_team) 0 with
        | ok res =>
          obtain ⟨teams0, pos0⟩ := res
          cases hs : score_team_mapping teams0 with
          | ok score0 =>
            simp only [hg, hs] at h
            exact ⟨teams0, pos0, score0, rfl, hs, (search_loop_score_le reset _ _ _ _ _ _ h).1⟩
          | assert_fail l => simp [hg, hs] at h
          | undefined => simp [hg, hs] at h
          | out_of_fuel => simp [hg, hs] at h
        | assert_fail l => simp [hg] at h
        | undefined => simp [hg] at h
        | out_of_fuel => simp [hg] at h

/-- Witness of C3: `main` with `RESET_TIMEOUT` replaced by 2 on three rosters of two archers
and the random stream `i ↦ i + i / 10`. The initial assignment scores 30, the first trial
improves to 10, two trials without improvement follow, and the final score 10 is at most
the initial score. -/
theorem search_never_accepts_worse_witness :
    ∃ teams0 pos0 score0,
      random_team_mapping [("A", 10), ("B", 20)] [("C", 10), ("D", 20)] [("E", 10), ("F", 20)]
        (List.replicate 2 blank_team) (fun i => i + i / 10) 5 0 = .ok (teams0, pos0) ∧
      score_team_mapping teams0 = .ok score0 ∧ (10 : Int) ≤ score0 :=
  (search_never_accepts_worse 2 (fun p : Nat => Outcome.ok ([], p))).2.2.2
    [("A", 10), ("B", 20)] [("C", 10), ("D", 20)] [("E", 10), ("F", 20)]
    (fun result pos =>
      random_team_mapping [("A", 10), ("B", 20)] [("C", 10), ("D", 20)] [("E", 10), ("F", 20)]
        result (fun i => i + i / 10) 5 pos)
    4
    { candidate_teams := [⟨"A", 10, "C", 10, "F", 20⟩, ⟨"B", 20, "D", 20, "E", 10⟩],
      candidate_score := 10, timeout := 0 }
    24 (by decide)

/-- C4. For every patience constant `reset` (in particular every `reset > 0`) and every
generator whose every call returns an assignment that the scorer scores, the search loop
reaches its exit (`timeout ≤ 0`) after finitely many trials, from every state. -/
theorem search_loop_terminates {σ : Type} (reset : Int)
    (gen : σ → Outcome (List team_selection × σ))
    (hgen : ∀ g, ∃ use_teams g1 use_score,
      gen g = .ok (use_teams, g1) ∧ score_team_mapping use_teams = .ok use_score)
    (g : σ) (st : SearchState) :
    ∃ fuel st1 g1, search_loop reset gen fuel g st = .ok (st1, g1) ∧ st1.timeout ≤ 0 := by
  have aux : ∀ (a t : Nat) (g : σ) (st : SearchState),
      Int.toNat (st.candidate_score + 2 ^ 31) ≤ a → Int.toNat st.timeout ≤ t →
      ∃ fuel st1 g1, search_loop reset gen fuel g st = .ok (st1, g1) ∧ st1.timeout ≤ 0 := by
    intro a
    induction a with
    | zero =>
      intro t
      induction t with
      | zero =>
        intro g st _ ht
        have hpos : ¬ st.timeout > 0 := by omega
        exact ⟨0, st, g, by simp only [search_loop, hpos, if_false], by omega⟩
      | succ t iht =>
        intro g st ha ht
        by_cases hpos : st.timeout > 0
        · obtain ⟨use_teams, g1, use_score, hg, hs⟩ := hgen g
          have hge := score_team_mapping_ge use_teams use_score hs
          have hno : ¬ use_score < st.candidate_score := by omega
          obtain ⟨fuel, st1, g2, hrun, hdone⟩ :=
            iht g1 (search_trial reset st use_teams use_score)
              (by simp only [search_trial, hno, if_false]; exact ha)
              (by simp only [search_trial, hno, if_false]; omega)
          exact ⟨fuel + 1, st1, g2,
            by rw [search_loop_succ reset gen fuel g g1 st use_teams use_score hpos hg hs]
               exact hrun, hdone⟩
        · exact ⟨0, st, g, by simp only [search_loop, hpos, if_false], by omega⟩
    | succ a iha =>
      intro t
      induction t with
      | zero =>
        intro g st _ ht
        have hpos : ¬ st.timeout > 0 := by omega
        exact ⟨0, st, g, by simp only [search_loop, hpos, if_false], by omega⟩
      | succ t iht =>
        intro g st ha ht
        by_cases hpos : st.timeout > 0
        · obtain ⟨use_teams, g1, use_score, hg, hs⟩ := hgen g
          have hge := score_team_mapping_ge use_teams use_score hs
          by_cases himp : use_score < st.candidate_score
          · obtain ⟨fuel, st1, g2, hrun, hdone⟩ :=
              iha (Int.toNat reset) g1 (search_trial reset st use_teams use_score)
                (by simp only [search_trial, himp, if_true]; omega)
                (by simp only [search_trial, himp, if_true]; exact le_refl _)
            exact ⟨fuel + 1, st1, g2,
              by rw [search_loop_succ reset gen fuel g g1 st use_teams use_score hpos hg hs]
                 exact hrun, hdone⟩
          · obtain ⟨fuel, st1, g2, hrun, hdone⟩ :=
              iht g1 (search_trial reset st use_teams use_score)
                (by simp only [search_trial, himp, if_false]; exact ha)
                (by simp only [search_trial, himp, if_false]; omega)
            exact ⟨fuel + 1, st1, g2,
              by rw [search_loop_succ reset gen fuel g g1 st use_teams use_score hpos hg hs]
                 exact hrun, hdone⟩
        · exact ⟨0, st, g, by simp only [search_loop, hpos, if_false], by omega⟩
  exact aux _ _ g st (le_refl _) (le_refl _)

/-- Witness of C4: the generator is `random_team_mapping` on three rosters of one archer;
every call of it returns, and the loop started with patience 3 reaches its exit. -/
theorem search_loop_terminates_witness :
    ∃ fuel st1 g1,
      search_loop 3
        (fun p => random_team_mapping [("A", 10)] [("B", 20)] [("C", 30)] [blank_team]
          (fun i => i) 1 p)
        fuel 0 { candidate_teams := [blank_team], candidate_score := 5, timeout := 3 } =
        .ok (st1, g1) ∧ st1.timeout ≤ 0 :=
  search_loop_terminates 3
    (fun p => random_team_mapping [("A", 10)] [("B", 20)] [("C", 30)] [blank_team]
      (fun i => i) 1 p)
    (fun g => ⟨[⟨"A", 10, "B", 20, "C", 30⟩], g + 3, 0, by
      simp [random_team_mapping, clear_scores, spread, draw_slot, blank_team,
        team_selection.score_of, team_selection.put, Nat.mod_one], by decide⟩)
    0 { candidate_teams := [blank_team], candidate_score := 5, timeout := 3 }

/-- C10. In `main`, when the three loaded rosters do not all have the same cardinality,
the run ends in the assertion of line 192 or of line 193, whatever the function called on
lines 198 and 210 would do and whatever the random stream and the fuel: the assertions
fail before `random_team_mapping` is called. -/
theorem main_search_cardinality_mismatch (reset : Int)
    (style_compound style_recurve style_barebow : Roster)
    (hne : ¬ (style_compound.length = style_recurve.length ∧
      style_recurve.length = style_barebow.length)) :
    (∀ (generate : List team_selection → Nat → Outcome (List team_selection × Nat))
      (fuel : Nat),
      main_search_with reset style_compound style_recurve style_barebow generate fuel =
          .assert_fail 192 ∨
        main_search_with reset style_compound style_recurve style_barebow generate fuel =
          .assert_fail 193) ∧
    (∀ (rnd : Nat → Nat) (gen_fuel fuel : Nat),
      main_search reset style_compound style_recurve style_barebow rnd gen_fuel fuel =
          .assert_fail 192 ∨
        main_search reset style_compound style_recurve style_barebow rnd gen_fuel fuel =
          .assert_fail 193) := by
  have key : ∀ (generate : List team_selection → Nat → Outcome (List team_selection × Nat))
      (fuel : Nat),
      main_search_with reset style_compound style_recurve style_barebow generate fuel =
          .assert_fail 192 ∨
        main_search_with reset style_compound style_recurve style_barebow generate fuel =
          .assert_fail 193 := by
    intro generate fuel
    unfold main_search_with
    by_cases h1 : style_compound.length ≠ style_barebow.length
    · left
      rw [if_pos h1]
    · by_cases h2 : style_compound.length ≠ style_recurve.length
      · right
        rw [if_neg h1, if_pos h2]
      · exfalso
        apply hne
        omega
  exact ⟨key, fun rnd gen_fuel fuel => key _ fuel⟩

/-- Witness of C10: five compound archers and four recurve archers. -/
theorem main_search_cardinality_mismatch_witness :
    main_search RESET_TIMEOUT
        [("A", 10), ("B", 20), ("C", 30), ("D", 40), ("E", 50)]
        [("F", 10), ("G", 20), ("H", 30), ("I", 40)]
        [("J", 10), ("K", 20), ("L", 30), ("M", 40), ("N", 50)] (fun i => i) 10 10 =
        .assert_fail 192 ∨
      main_search RESET_TIMEOUT
        [("A", 10), ("B", 20), ("C", 30), ("D", 40), ("E", 50)]
        [("F", 10), ("G", 20), ("H", 30), ("I", 40)]
        [("J", 10), ("K", 20), ("L", 30), ("M", 40), ("N", 50)] (fun i => i) 10 10 =
        .assert_fail 193 :=
  (main_search_cardinality_mismatch RESET_TIMEOUT
    [("A", 10), ("B", 20), ("C", 30), ("D", 40), ("E", 50)]
    [("F", 10), ("G", 20), ("H", 30), ("I", 40)]
    [("J", 10), ("K", 20), ("L", 30), ("M", 40), ("N", 50)] (by decide)).2 (fun i => i) 10 10

/-! ### The generator -/

/-- C8 (the code at the failing input). Two slots, two compound archers, two recurve archers
and one barebow archer: the barebow roster has not the cardinality of the vector, and
`random_team_mapping` returns, with a slot whose barebow score is 0. The assertion of
line 132 compares with `style_recurve` a second time, not with `style_barebow`. -/
theorem random_team_mapping_barebow_unchecked :
    [("E", 1)].length ≠ [blank_team, blank_team].length ∧
    random_team_mapping [("A", 1), ("B", 2)] [("C", 1), ("D", 2)] [("E", 1)]
      [blank_team, blank_team] (fun i => i) 2 0 =
      .ok ([⟨"A", 1, "C", 1, "E", 1⟩, ⟨"B", 2, "D", 2, "", 0⟩], 5) := by
  decide

theorem map_set_of_eq {α β : Type} (f : α → β) :
    ∀ (l : List α) (i : Nat) (a b : α), l[i]? = some a → f b = f a →
      (l.set i b).map f = l.map f := by
  intro l
  induction l with
  | nil => intro i a b h; simp at h
  | cons x xs ih =>
    intro i a b h hf
    cases i with
    | zero =>
      simp only [List.getElem?_cons_zero, Option.some.injEq] at h
      subst h
      simp [hf]
    | succ i =>
      simp only [List.getElem?_cons_succ] at h
      simp only [List.set_cons_succ, List.map_cons, ih i a b h hf]

theorem filter_map_set_perm {α β : Type} (f : α → β) (p : β → Bool) :
    ∀ (l : List α) (i : Nat) (a b : α), l[i]? = some a → p (f a) = false → p (f b) = true →
      (((l.set i b).map f).filter p).Perm (f b :: (l.map f).filter p) := by
  intro l
  induction l with
  | nil => intro i a b h; simp at h
  | cons x xs ih =>
    intro i a b h ha hb
    cases i with
    | zero =>
      simp only [List.getElem?_cons_zero, Option.some.injEq] at h
      subst h
      simp only [List.set_cons_zero, List.map_cons, List.filter_cons, ha, hb, if_true]
      exact List.Perm.refl _
    | succ i =>
      simp only [List.getElem?_cons_succ] at h
      have := ih i a b h ha hb
      simp only [List.set_cons_succ, List.map_cons, List.filter_cons]
      cases hx : p (f x) with
      | true =>
        simp only [if_true]
        exact (List.Perm.cons _ this).trans (List.Perm.swap _ _ _)
      | false =>
        simpa using this

theorem entry_of_put_same (k : Style) (name : String) (score : Nat) (t : team_selection) :
    (t.put k name score).entry_of k = (name, score) := by
  cases k <;> rfl

theorem entry_of_put_other (j k : Style) (hjk : j ≠ k) (name : String) (score : Nat)
    (t : team_selection) : (t.put k name score).entry_of j = t.entry_of j := by
  cases k <;> cases j <;> first | rfl | exact absurd rfl hjk

/-- Filling an empty slot adds exactly the new entry to the entries placed. -/
theorem placed_set (k : Style) (result : List team_selection) (ptr : Nat) (t : team_selection)
    (name : String) (score : Nat) (ht : result[ptr]? = some t) (hempty : t.score_of k = 0)
    (hscore : score ≠ 0) :
    (placed k (result.set ptr (t.put k name score))).Perm ((name, score) :: placed k result) := by
  have h := filter_map_set_perm (team_selection.entry_of k) (fun e => decide (e.2 ≠ 0))
    result ptr t (t.put k name score) ht
    (by simp [team_selection.entry_of, hempty])
    (by rw [entry_of_put_same]; simpa using hscore)
  rw [entry_of_put_same] at h
  exact h

theorem placed_clear_scores (k : Style) (result : List team_selection) :
    placed k (clear_scores result) = [] := by
  unfold placed clear_scores
  rw [List.filter_eq_nil_iff]
  intro e he
  simp only [List.map_map, List.mem_map, Function.comp] at he
  obtain ⟨t, -, rfl⟩ := he
  cases k <;> simp [team_selection.entry_of, team_selection.score_of]

/-- The redraw loop returns the index of a slot that is empty for the style. -/
theorem draw_slot_ok (k : Style) (result : List team_selection) (rnd : Nat → Nat) :
    ∀ (fuel pos ptr pos1 : Nat), draw_slot k result rnd fuel pos = .ok (ptr, pos1) →
      ∃ t, result[ptr]? = some t ∧ t.score_of k = 0 := by
  intro fuel
  induction fuel with
  | zero => intro pos ptr pos1 h; simp [draw_slot] at h
  | succ fuel ih =>
    intro pos ptr pos1 h
    simp only [draw_slot] at h
    split at h
    · cases h
    · cases ht : result[rnd pos % result.length]? with
      | none => simp [ht] at h
      | some t =>
        simp only [ht] at h
        by_cases hz : t.score_of k = 0
        · simp only [hz, ne_eq, not_true_eq_false, if_false, Outcome.ok.injEq,
            Prod.mk.injEq] at h
          obtain ⟨rfl, -⟩ := h
          exact ⟨t, ht, hz⟩
        · simp only [ne_eq, hz, not_false_eq_true, if_true] at h
          exact ih _ _ _ h

/-- One placement loop that returns keeps the size of the vector and the fields of the
other styles, and adds exactly the roster entries to the entries placed for its style. -/
theorem spread_ok (k : Style) (line : Nat) (rnd : Nat → Nat) (fuel : Nat) :
    ∀ (entries : Roster) (result : List team_selection) (pos : Nat)
      (out : List team_selection) (pos1 : Nat),
      spread k line rnd fuel entries result pos = .ok (out, pos1) →
      out.length = result.length ∧
      (∀ j, j ≠ k → out.map (team_selection.entry_of j) =
        result.map (team_selection.entry_of j)) ∧
      (placed k out).Perm (entries ++ placed k result) := by
  intro entries
  induction entries with
  | nil =>
    intro result pos out pos1 h
    simp only [spread, Outcome.ok.injEq, Prod.mk.injEq] at h
    obtain ⟨rfl, -⟩ := h
    exact ⟨rfl, fun _ _ => rfl, List.Perm.refl _⟩
  | cons e rest ih =>
    intro result pos out pos1 h
    obtain ⟨name, score⟩ := e
    simp only [spread] at h
    by_cases hs : score = 0
    · simp [hs] at h
    · simp only [hs, if_false] at h
      cases hd : draw_slot k result rnd fuel pos with
      | ok r =>
        obtain ⟨ptr, pos2⟩ := r
        obtain ⟨t, ht, hempty⟩ := draw_slot_ok k result rnd fuel pos ptr pos2 hd
        simp only [hd, ht] at h
        obtain ⟨h1, h2, h3⟩ := ih _ _ _ _ h
        refine ⟨by rw [h1, List.length_set], ?_, ?_⟩
        · intro j hj
          rw [h2 j hj]
          exact map_set_of_eq _ result ptr t _ ht (entry_of_put_other j k hj name score t)
        · have hp := placed_set k result ptr t name score ht hempty hs
          exact (h3.trans (List.Perm.append_left rest hp)).trans List.perm_middle
      | assert_fail l => simp [hd] at h
      | undefined => simp [hd] at h
      | out_of_fuel => simp [hd] at h

/-- A call of `random_team_mapping` that returns has passed the assertions on the compound
and recurve cardinalities, and the entries placed for each style are the entries of that
style's roster, up to order. -/
theorem random_team_mapping_placed (style_compound style_recurve style_barebow : Roster)
    (result : List team_selection) (rnd : Nat → Nat) (fuel pos : Nat)
    (out : List team_selection) (pos1 : Nat)
    (hret : random_team_mapping style_compound style_recurve style_barebow result rnd fuel pos =
      .ok (out, pos1)) :
    out.length = result.length ∧ result.length = style_compound.length ∧
    result.length = style_recurve.length ∧
    (placed .compound out).Perm style_compound ∧
    (placed .recurve out).Perm style_recurve ∧
    (placed .barebow out).Perm style_barebow := by
  have hlen0 : (clear_scores result).length = result.length := by
    simp [clear_scores]
  have hplaced : ∀ (j : Style) (x y : List team_selection),
      x.map (team_selection.entry_of j) = y.map (team_selection.entry_of j) →
      placed j x = placed j y := by
    intro j x y h
    unfold placed
    rw [h]
  unfold random_team_mapping at hret
  simp only at hret
  by_cases hc : (clear_scores result).length ≠ style_compound.length
  · rw [if_pos hc] at hret
    cases hret
  · rw [if_neg hc] at hret
    cases h1 : spread .compound 108 rnd fuel style_compound (clear_scores result) pos with
    | ok res1 =>
      obtain ⟨result1, p1⟩ := res1
      simp only [h1] at hret
      obtain ⟨l1, o1, q1⟩ := spread_ok _ _ _ _ _ _ _ _ _ h1
      by_cases hr : result1.length ≠ style_recurve.length
      · rw [if_pos hr] at hret
        cases hret
      · rw [if_neg hr] at hret
        cases h2 : spread .recurve 121 rnd fuel style_recurve result1 p1 with
        | ok res2 =>
          obtain ⟨result2, p2⟩ := res2
          simp only [h2] at hret
          obtain ⟨l2, o2, q2⟩ := spread_ok _ _ _ _ _ _ _ _ _ h2
          by_cases hb : result2.length ≠ style_recurve.length
          · rw [if_pos hb] at hret
            cases hret
          · rw [if_neg hb] at hret
            obtain ⟨l3, o3, q3⟩ := spread_ok _ _ _ _ _ _ _ _ _ hret
            refine ⟨by omega, by omega, by omega, ?_, ?_, ?_⟩
            · rw [hplaced _ _ _ (o3 .compound (by decide)),
                hplaced _ _ _ (o2 .compound (by decide))]
              rw [placed_clear_scores, List.append_nil] at q1
              exact q1
            · rw [hplaced _ _ _ (o3 .recurve (by decide))]
              rw [hplaced _ _ _ (o1 .recurve (by decide)), placed_clear_scores,
                List.append_nil] at q2
              exact q2
            · rw [hplaced _ _ _ (o2 .barebow (by decide)),
                hplaced _ _ _ (o1 .barebow (by decide)), placed_clear_scores,
                List.append_nil] at q3
              exact q3
        | assert_fail l => simp [h2] at hret
        | undefined => simp [h2] at hret
        | out_of_fuel => simp [h2] at hret
    | assert_fail l => simp [h1] at hret
    | undefined => simp [h1] at hret
    | out_of_fuel => simp [h1] at hret

/-- When as many entries are placed as there are slots, and the keys of the roster are
distinct, the assignment is a bijection for the style. -/
theorem category_bijection_of_placed (k : Style) (roster : Roster)
    (out : List team_selection) (hkeys : (roster.map Prod.fst).Nodup)
    (hlen : roster.length = out.length) (hp : (placed k out).Perm roster) :
    category_bijection k roster out := by
  have hall : ∀ e ∈ out.map (team_selection.entry_of k), decide (e.2 ≠ 0) = true := by
    apply List.filter_length_eq_length.1
    have := hp.length_eq
    unfold placed at this
    rw [this, hlen, List.length_map]
  have hfull : placed k out = out.map (team_selection.entry_of k) := by
    unfold placed
    exact List.filter_eq_self.2 hall
  rw [hfull] at hp
  have hnd : (out.map (team_selection.entry_of k)).Nodup :=
    hp.nodup_iff.2 (List.Nodup.of_map _ hkeys)
  refine ⟨?_, hp, ?_⟩
  · intro t ht
    have hm : t.entry_of k ∈ out.map (team_selection.entry_of k) := List.mem_map_of_mem _ ht
    refine ⟨?_, hp.mem_iff.1 hm⟩
    have := hall _ hm
    simpa [team_selection.entry_of] using this
  · intro e he
    obtain ⟨i, hi⟩ := List.mem_iff_getElem?.1 (hp.mem_iff.2 he)
    have hi0 := hi
    rw [List.getElem?_map] at hi
    cases ho : out[i]? with
    | none => simp [ho] at hi
    | some t =>
      simp only [ho, Option.map_some', Option.some.injEq] at hi
      refine ⟨i, ⟨t, ho, hi⟩, ?_⟩
      rintro i1 ⟨t1, ho1, e1⟩
      have hi1 : (out.map (team_selection.entry_of k))[i1]? = some e := by
        rw [List.getElem?_map, ho1, Option.map_some', e1]
      have hlt : i1 < (out.map (team_selection.entry_of k)).length := by
        rw [List.length_map]
        exact (List.getElem?_eq_some.1 ho1).1
      exact List.getElem?_inj hlt hnd (hi1.trans hi0.symm)

/-- C1. For three rosters (maps, so with distinct keys) and a vector of the size of the
barebow roster, every call of `random_team_mapping` that returns, on whatever random
stream, returns an assignment of the same size that is a per-category bijection: for each
of compound, recurve and barebow, every slot holds a non-zero score with the name and
score of a roster entry of that style, and every roster entry is in exactly one slot.
That the call returns already implies that the roster scores are positive and that the
compound and recurve rosters have the size of the vector (assertions on lines 106-134). -/
theorem random_team_mapping_bijection (style_compound style_recurve style_barebow : Roster)
    (result : List team_selection) (rnd : Nat → Nat) (fuel pos : Nat)
    (out : List team_selection) (pos1 : Nat)
    (hkc : (style_compound.map Prod.fst).Nodup) (hkr : (style_recurve.map Prod.fst).Nodup)
    (hkb : (style_barebow.map Prod.fst).Nodup)
    (hb : style_barebow.length = result.length)
    (hret : random_team_mapping style_compound style_recurve style_barebow result rnd fuel pos =
      .ok (out, pos1)) :
    out.length = result.length ∧
    category_bijection .compound style_compound out ∧
    category_bijection .recurve style_recurve out ∧
    category_bijection .barebow style_barebow out := by
  obtain ⟨h0, h1, h2, pc, pr, pb⟩ :=
    random_team_mapping_placed style_compound style_recurve style_barebow result rnd fuel pos
      out pos1 hret
  exact ⟨h0,
    category_bijection_of_placed _ _ _ hkc (by omega) pc,
    category_bijection_of_placed _ _ _ hkr (by omega) pr,
    category_bijection_of_placed _ _ _ hkb (by omega) pb⟩

/-- Witness of C1: three rosters of three archers, three slots and the random stream
`i ↦ i * i + i / 4`, on which the call draws 14 numbers and returns. -/
theorem random_team_mapping_bijection_witness :
    [(⟨"A", 10, "C", 30, "B", 20⟩ : team_selection), ⟨"B", 20, "B", 20, "C", 30⟩,
        ⟨"C", 30, "A", 10, "A", 10⟩].length = (List.replicate 3 blank_team).length ∧
    category_bijection .compound [("A", 10), ("B", 20), ("C", 30)]
      [⟨"A", 10, "C", 30, "B", 20⟩, ⟨"B", 20, "B", 20, "C", 30⟩, ⟨"C", 30, "A", 10, "A", 10⟩] ∧
    category_bijection .recurve [("A", 10), ("B", 20), ("C", 30)]
      [⟨"A", 10, "C", 30, "B", 20⟩, ⟨"B", 20, "B", 20, "C", 30⟩, ⟨"C", 30, "A", 10, "A", 10⟩] ∧
    category_bijection .barebow [("A", 10), ("B", 20), ("C", 30)]
      [⟨"A", 10, "C", 30, "B", 20⟩, ⟨"B", 20, "B", 20, "C", 30⟩, ⟨"C", 30, "A", 10, "A", 10⟩] :=
  random_team_mapping_bijection [("A", 10), ("B", 20), ("C", 30)]
    [("A", 10), ("B", 20), ("C", 30)] [("A", 10), ("B", 20), ("C", 30)]
    (List.replicate 3 blank_team) (fun i => i * i + i / 4) 6 0
    [⟨"A", 10, "C", 30, "B", 20⟩, ⟨"B", 20, "B", 20, "C", 30⟩, ⟨"C", 30, "A", 10, "A", 10⟩] 14
    (by decide) (by decide) (by decide) (by decide) (by decide)

/-! ### The generator: calls that do not return -/

theorem placed_length_le (k : Style) (result : List team_selection) :
    (placed k result).length ≤ result.length := by
  unfold placed
  exact (List.length_filter_le _ _).trans (by rw [List.length_map])

/-- On a non-empty vector the redraw loop either exits or runs out of fuel. -/
theorem draw_slot_cases (k : Style) (result : List team_selection) (rnd : Nat → Nat)
    (hne : result.length ≠ 0) :
    ∀ fuel pos : Nat, draw_slot k result rnd fuel pos = .out_of_fuel ∨
      ∃ ptr pos1, draw_slot k result rnd fuel pos = .ok (ptr, pos1) := by
  intro fuel
  induction fuel with
  | zero => intro pos; exact Or.inl rfl
  | succ fuel ih =>
    intro pos
    have hlt : rnd pos % result.length < result.length := Nat.mod_lt _ (by omega)
    have hget : result[rnd pos % result.length]? = some (result[rnd pos % result.length]) :=
      List.getElem?_eq_getElem hlt
    simp only [draw_slot, hne, if_false, hget]
    by_cases hz : (result[rnd pos % result.length]).score_of k = 0
    · right
      exact ⟨rnd pos % result.length, pos + 1, by simp [hz]⟩
    · simp only [ne_eq, hz, not_false_eq_true, if_true]
      exact ih (pos + 1)

/-- On a non-empty vector a placement loop over non-zero scores either returns or runs out
of fuel. -/
theorem spread_cases (k : Style) (line : Nat) (rnd : Nat → Nat) (fuel : Nat) :
    ∀ (entries : Roster) (result : List team_selection) (pos : Nat),
      result.length ≠ 0 → (∀ e ∈ entries, e.2 ≠ 0) →
      spread k line rnd fuel entries result pos = .out_of_fuel ∨
        ∃ r, spread k line rnd fuel entries result pos = .ok r := by
  intro entries
  induction entries with
  | nil => intro result pos _ _; exact Or.inr ⟨_, rfl⟩
  | cons e rest ih =>
    intro result pos hne hs
    obtain ⟨name, score⟩ := e
    have hscore : score ≠ 0 := hs (name, score) (List.mem_cons_self _ _)
    simp only [spread, hscore, if_false]
    rcases draw_slot_cases k result rnd hne fuel pos with hd | ⟨ptr, pos1, hd⟩
    · left
      simp only [hd]
    · obtain ⟨t, ht, -⟩ := draw_slot_ok k result rnd fuel pos ptr pos1 hd
      simp only [hd, ht]
      exact ih _ _ (by rw [List.length_set]; exact hne)
        (fun e he => hs e (List.mem_cons_of_mem _ he))

/-- A placement loop that returns has found an empty slot for every entry. -/
theorem spread_ok_length (k : Style) (line : Nat) (rnd : Nat → Nat) (fuel : Nat)
    (entries : Roster) (result : List team_selection) (pos : Nat)
    (r : List team_selection × Nat)
    (h : spread k line rnd fuel entries result pos = .ok r) :
    entries.length + (placed k result).length ≤ result.length := by
  obtain ⟨out, pos1⟩ := r
  obtain ⟨h1, -, h3⟩ := spread_ok k line rnd fuel entries result pos out pos1 h
  have := h3.length_eq
  rw [List.length_append] at this
  have hle := placed_length_le k out
  omega

/-- C11 (as amended). When a roster has more competitors than the vector has slots,
`random_team_mapping` returns no assignment, on every random stream and with every fuel.
For the compound roster the call is stopped by the assertion of line 106, and for the
recurve roster by the assertion of line 119 once the compound loop has returned: no redraw
loop runs in these cases. A placement loop that is entered on a non-empty vector with
more competitors (of non-zero score) than empty slots never terminates. -/
theorem random_team_mapping_oversized :
    (∀ (style_compound style_recurve style_barebow : Roster) (result : List team_selection)
      (rnd : Nat → Nat) (fuel pos : Nat) (r : List team_selection × Nat),
      (result.length < style_compound.length ∨ result.length < style_recurve.length ∨
        result.length < style_barebow.length) →
      random_team_mapping style_compound style_recurve style_barebow result rnd fuel pos ≠
        .ok r) ∧
    (∀ (style_compound style_recurve style_barebow : Roster) (result : List team_selection)
      (rnd : Nat → Nat) (fuel pos : Nat),
      result.length < style_compound.length →
      random_team_mapping style_compound style_recurve style_barebow result rnd fuel pos =
        .assert_fail 106) ∧
    (∀ (style_compound style_recurve style_barebow : Roster) (result : List team_selection)
      (rnd : Nat → Nat) (fuel pos : Nat) (r1 : List team_selection × Nat),
      result.length < style_recurve.length →
      spread .compound 108 rnd fuel style_compound (clear_scores result) pos = .ok r1 →
      random_team_mapping style_compound style_recurve style_barebow result rnd fuel pos =
          .assert_fail 106 ∨
        random_team_mapping style_compound style_recurve style_barebow result rnd fuel pos =
          .assert_fail 119) ∧
    (∀ (k : Style) (line : Nat) (rnd : Nat → Nat) (entries : Roster)
      (result : List team_selection) (pos : Nat),
      result.length ≠ 0 → (∀ e ∈ entries, e.2 ≠ 0) →
      result.length < entries.length + (placed k result).length →
      ∀ fuel, spread k line rnd fuel entries result pos = .out_of_fuel) := by
  refine ⟨?_, ?_, ?_, ?_⟩
  · intro c r b result rnd fuel pos res hlong hret
    obtain ⟨out, pos1⟩ := res
    obtain ⟨h0, h1, h2, -, -, pb⟩ :=
      random_team_mapping_placed c r b result rnd fuel pos out pos1 hret
    have h3 := pb.length_eq
    have h4 := placed_length_le .barebow out
    omega
  · intro c r b result rnd fuel pos hlong
    have hlen : (clear_scores result).length = result.length := by simp [clear_scores]
    unfold random_team_mapping
    simp only
    rw [if_pos (by omega)]
  · intro c r b result rnd fuel pos r1 hlong h1
    have hlen : (clear_scores result).length = result.length := by simp [clear_scores]
    obtain ⟨result1, p1⟩ := r1
    obtain ⟨l1, -, -⟩ := spread_ok _ _ _ _ _ _ _ _ _ h1
    unfold random_team_mapping
    simp only
    by_cases hc : (clear_scores result).length ≠ c.length
    · left
      rw [if_pos hc]
    · right
      rw [if_neg hc]
      simp only [h1]
      rw [if_pos (by omega)]
  · intro k line rnd entries result pos hne hs hlong fuel
    rcases spread_cases k line rnd fuel entries result pos hne hs with h | ⟨r, h⟩
    · exact h
    · have := spread_ok_length k line rnd fuel entries result pos r h
      omega

/-- Witness of C11: two compound archers and one slot. -/
theorem random_team_mapping_oversized_witness :
    random_team_mapping [("A", 10), ("B", 20)] [("C", 10)] [("D", 10)] [blank_team]
      (fun i => i) 3 0 = .assert_fail 106 :=
  random_team_mapping_oversized.2.1 [("A", 10), ("B", 20)] [("C", 10)] [("D", 10)]
    [blank_team] (fun i => i) 3 0 (by decide)

/-- Counterexample to C11 as stated. The compound roster has two competitors and the vector
one slot; the call does not loop: it ends at once in the assertion of line 106, so it is
not true that for every fuel the call is still running. -/
theorem random_team_mapping_oversized_counterexample :
    [blank_team].length < [("A", 10), ("B", 20)].length ∧
    random_team_mapping [("A", 10), ("B", 20)] [("C", 10)] [("D", 10)] [blank_team]
      (fun i => i) 3 0 = .assert_fail 106 ∧
    ¬ ∀ fuel, random_team_mapping [("A", 10), ("B", 20)] [("C", 10)] [("D", 10)] [blank_team]
      (fun i => i) fuel 0 = .out_of_fuel := by
  refine ⟨by decide, by decide, ?_⟩
  intro h
  have := h 3
  revert this
  decide

theorem score_of_put (k : Style) (name : String) (score : Nat) (t : team_selection) :
    (t.put k name score).score_of k = score := by
  cases k <;> rfl

theorem score_of_clear_scores (k : Style) (result : List team_selection) (i : Nat)
    (t : team_selection) (h : (clear_scores result)[i]? = some t) : t.score_of k = 0 := by
  have hm : t ∈ clear_scores result := List.getElem?_mem h
  unfold clear_scores at hm
  obtain ⟨u, -, rfl⟩ := List.mem_map.1 hm
  cases k <;> rfl

/-- When every draw selects the same occupied slot, the redraw loop never exits. -/
theorem draw_slot_const_occupied (k : Style) (result : List team_selection) (s : Nat)
    (t : team_selection) (hne : result.length ≠ 0)
    (ht : result[s % result.length]? = some t) (hocc : t.score_of k ≠ 0) :
    ∀ fuel pos : Nat, draw_slot k result (fun _ => s) fuel pos = .out_of_fuel := by
  intro fuel
  induction fuel with
  | zero => intro pos; rfl
  | succ fuel ih =>
    intro pos
    simp only [draw_slot, hne, if_false, ht, ne_eq, hocc, not_false_eq_true, if_true]
    exact ih (pos + 1)

/-- The redraw loop exits exactly at the first draw that selects an empty slot. -/
theorem draw_slot_ok_draw (k : Style) (result : List team_selection) (rnd : Nat → Nat) :
    ∀ (fuel pos ptr pos1 : Nat), draw_slot k result rnd fuel pos = .ok (ptr, pos1) →
      ∃ j t, pos1 = pos + j + 1 ∧ ptr = rnd (pos + j) % result.length ∧
        result[rnd (pos + j) % result.length]? = some t ∧ t.score_of k = 0 := by
  intro fuel
  induction fuel with
  | zero => intro pos ptr pos1 h; simp [draw_slot] at h
  | succ fuel ih =>
    intro pos ptr pos1 h
    simp only [draw_slot] at h
    split at h
    · cases h
    · cases ht : result[rnd pos % result.length]? with
      | none => simp [ht] at h
      | some t =>
        simp only [ht] at h
        by_cases hz : t.score_of k = 0
        · simp only [hz, ne_eq, not_true_eq_false, if_false, Outcome.ok.injEq,
            Prod.mk.injEq] at h
          obtain ⟨rfl, rfl⟩ := h
          exact ⟨0, t, rfl, rfl, ht, hz⟩
        · simp only [ne_eq, hz, not_false_eq_true, if_true] at h
          obtain ⟨j, u, h1, h2, h3, h4⟩ := ih _ _ _ h
          have e : pos + 1 + j = pos + (j + 1) := by omega
          rw [e] at h2 h3
          exact ⟨j + 1, u, by omega, h2, h3, h4⟩

theorem draw_slot_of_empty_draw (k : Style) (result : List team_selection) (rnd : Nat → Nat)
    (hne : result.length ≠ 0) :
    ∀ (j pos : Nat) (t : team_selection),
      result[rnd (pos + j) % result.length]? = some t → t.score_of k = 0 →
      ∃ fuel ptr pos1, draw_slot k result rnd fuel pos = .ok (ptr, pos1) := by
  intro j
  induction j with
  | zero =>
    intro pos t ht hz
    rw [Nat.add_zero] at ht
    exact ⟨1, rnd pos % result.length, pos + 1, by simp [draw_slot, hne, ht, hz]⟩
  | succ j ih =>
    intro pos t ht hz
    have hlt : rnd pos % result.length < result.length := Nat.mod_lt _ (by omega)
    have hget : result[rnd pos % result.length]? = some (result[rnd pos % result.length]) :=
      List.getElem?_eq_getElem hlt
    by_cases hz0 : (result[rnd pos % result.length]).score_of k = 0
    · exact ⟨1, rnd pos % result.length, pos + 1, by simp [draw_slot, hne, hget, hz0]⟩
    · have e : pos + 1 + j = pos + (j + 1) := by omega
      have ht1 : result[rnd (pos + 1 + j) % result.length]? = some t := by
        rw [e]; exact ht
      obtain ⟨fuel, ptr, pos1, h⟩ := ih (pos + 1) t ht1 hz
      refine ⟨fuel + 1, ptr, pos1, ?_⟩
      simp only [draw_slot, hne, if_false, hget, ne_eq, hz0, not_false_eq_true, if_true]
      exact h

/-- C20. Satisfied preconditions do not guarantee that a generation returns. For a vector
of at least two slots and a compound roster of that cardinality with positive scores, on
the random stream whose every draw is the same number `s` (for instance 0, which always
selects slot 0) `random_team_mapping` never returns: for every fuel the redraw loop of the
second compound archer is still running. A redraw loop on a non-empty vector exits if and
only if some draw from its start on selects a slot that is empty for its style. -/
theorem random_team_mapping_constant_draws :
    (∀ (style_compound style_recurve style_barebow : Roster) (result : List team_selection)
      (s : Nat), 2 ≤ result.length → style_compound.length = result.length →
      (∀ e ∈ style_compound, 0 < e.2) →
      ∀ fuel pos, random_team_mapping style_compound style_recurve style_barebow result
        (fun _ => s) fuel pos = .out_of_fuel) ∧
    (∀ (k : Style) (result : List team_selection) (rnd : Nat → Nat) (pos : Nat),
      result.length ≠ 0 →
      ((∃ fuel ptr pos1, draw_slot k result rnd fuel pos = .ok (ptr, pos1)) ↔
        ∃ j t, result[rnd (pos + j) % result.length]? = some t ∧ t.score_of k = 0)) := by
  refine ⟨?_, ?_⟩
  · intro c r b result s hN hc hpos fuel pos
    have hlen : (clear_scores result).length = result.length := by simp [clear_scores]
    unfold random_team_mapping
    simp only
    rw [if_neg (by omega)]
    have hsp : spread .compound 108 (fun _ => s) fuel c (clear_scores result) pos =
        .out_of_fuel := by
      match c, hc, hpos with
      | [], hc, _ => simp at hc; omega
      | [_], hc, _ => simp at hc; omega
      | (n1, s1) :: (n2, s2) :: rest, hc, hpos =>
        have h1 : s1 ≠ 0 := by
          have := hpos (n1, s1) (by simp)
          simp only at this
          omega
        have h2 : s2 ≠ 0 := by
          have := hpos (n2, s2) (by simp)
          simp only at this
          omega
        cases fuel with
        | zero => simp [spread, draw_slot, h1]
        | succ fuel =>
          have hne : (clear_scores result).length ≠ 0 := by omega
          have hlt : s % (clear_scores result).length < (clear_scores result).length :=
            Nat.mod_lt _ (by omega)
          have hget : (clear_scores result)[s % (clear_scores result).length]? =
              some ((clear_scores result)[s % (clear_scores result).length]) :=
            List.getElem?_eq_getElem hlt
          have hz := score_of_clear_scores .compound result _ _ hget
          have hd : draw_slot .compound (clear_scores result) (fun _ => s) (fuel + 1) pos =
              .ok (s % (clear_scores result).length, pos + 1) := by
            simp [draw_slot, hne, hget, hz]
          have hocc := draw_slot_const_occupied .compound
            ((clear_scores result).set (s % (clear_scores result).length)
              (((clear_scores result)[s % (clear_scores result).length]).put .compound n1 s1))
            s _ (by rw [List.length_set]; exact hne)
            (by rw [List.length_set]; exact List.getElem?_set_self hlt)
            (by rw [score_of_put]; exact h1) (fuel + 1) (pos + 1)
          simp only [spread, h1, h2, if_false, hd, hget, hocc]
    simp only [hsp]
  · intro k result rnd pos hne
    constructor
    · rintro ⟨fuel, ptr, pos1, h⟩
      obtain ⟨j, t, -, -, h3, h4⟩ := draw_slot_ok_draw k result rnd fuel pos ptr pos1 h
      exact ⟨j, t, h3, h4⟩
    · rintro ⟨j, t, h3, h4⟩
      exact draw_slot_of_empty_draw k result rnd hne j pos t h3 h4

/-- Witness of C20: three rosters of two archers, two slots, every draw the number 0. -/
theorem random_team_mapping_constant_draws_witness :
    ∀ fuel pos, random_team_mapping [("A", 10), ("B", 20)] [("C", 10), ("D", 20)]
      [("E", 10), ("F", 20)] [blank_team, blank_team] (fun _ => 0) fuel pos = .out_of_fuel :=
  random_team_mapping_constant_draws.1 [("A", 10), ("B", 20)] [("C", 10), ("D", 20)]
    [("E", 10), ("F", 20)] [blank_team, blank_team] 0 (by decide) (by decide) (by decide)

/-! ### The generator: every bijection is reached -/

theorem getElem?_slot_index (e : String × Nat) :
    ∀ col : List (String × Nat), e ∈ col → col[slot_index e col]? = some e := by
  intro col
  induction col with
  | nil => intro h; simp at h
  | cons x col ih =>
    intro h
    by_cases hx : x = e
    · simp [slot_index, hx]
    · have : e ∈ col := by
        rcases List.mem_cons.1 h with h1 | h1
        · exact absurd h1.symm hx
        · exact h1
      simp only [slot_index, hx, if_false, List.getElem?_cons_succ]
      exact ih this

/-- A placement loop whose draws are the target slots of its roster entries, in order,
makes no redraw and fills the column of its style as in the target. -/
theorem spread_reaches (k : Style) (line : Nat) (rnd : Nat → Nat) (fuel : Nat)
    (col : List (String × Nat)) (hnd : col.Nodup) :
    ∀ (entries : Roster) (result : List team_selection) (pos : Nat),
      entries.Nodup → (∀ e ∈ entries, e ∈ col ∧ e.2 ≠ 0) → result.length = col.length →
      (∀ j e, entries[j]? = some e → rnd (pos + j) = slot_index e col) →
      (∀ (i : Nat) (t : team_selection) (e : String × Nat),
        result[i]? = some t → col[i]? = some e →
        (e ∈ entries → t.score_of k = 0) ∧ (e ∉ entries → t.entry_of k = e)) →
      ∃ out, spread k line rnd (fuel + 1) entries result pos =
          .ok (out, pos + entries.length) ∧
        out.map (team_selection.entry_of k) = col := by
  intro entries
  induction entries with
  | nil =>
    intro result pos _ _ hlen _ hinv
    refine ⟨result, rfl, ?_⟩
    apply List.ext_getElem?
    intro i
    rw [List.getElem?_map]
    by_cases hi : i < result.length
    · have h1 : result[i]? = some result[i] := List.getElem?_eq_getElem hi
      have h2 : col[i]? = some col[i] := List.getElem?_eq_getElem (by omega)
      rw [h1, h2, Option.map_some']
      exact congrArg some ((hinv i result[i] col[i] h1 h2).2 (List.not_mem_nil _))
    · rw [List.getElem?_eq_none (by omega), List.getElem?_eq_none (by omega)]
      rfl
  | cons e rest ih =>
    intro result pos hnodup hmem hlen hrnd hinv
    obtain ⟨name, score⟩ := e
    obtain ⟨hin, hs⟩ := hmem (name, score) (List.mem_cons_self _ _)
    simp only at hs
    have hcol0 : col[slot_index (name, score) col]? = some (name, score) :=
      getElem?_slot_index (name, score) col hin
    have hi0 : slot_index (name, score) col < col.length := (List.getElem?_eq_some.1 hcol0).1
    have hr0 : rnd pos = slot_index (name, score) col := by
      have := hrnd 0 (name, score) (by simp)
      simpa using this
    have hne : result.length ≠ 0 := by omega
    have hmod : rnd pos % result.length = slot_index (name, score) col := by
      rw [hr0, hlen]
      exact Nat.mod_eq_of_lt hi0
    have hlt : slot_index (name, score) col < result.length := by omega
    have hget : result[slot_index (name, score) col]? = some result[slot_index (name, score) col] :=
      List.getElem?_eq_getElem hlt
    have hz : (result[slot_index (name, score) col]).score_of k = 0 :=
      (hinv _ _ _ hget hcol0).1 (List.mem_cons_self _ _)
    have hd : draw_slot k result rnd (fuel + 1) pos =
        .ok (slot_index (name, score) col, pos + 1) := by
      simp [draw_slot, hne, hmod, hget, hz]
    have hnot : (name, score) ∉ rest := (List.nodup_cons.1 hnodup).1
    obtain ⟨out, hout, hmap⟩ := ih
      (result.set (slot_index (name, score) col)
        ((result[slot_index (name, score) col]).put k name score))
      (pos + 1) (List.nodup_cons.1 hnodup).2
      (fun e he => hmem e (List.mem_cons_of_mem _ he))
      (by rw [List.length_set]; exact hlen)
      (by
        intro j e he
        have := hrnd (j + 1) e (by simpa using he)
        rw [← this]
        congr 1
        omega)
      (by
        intro i t e ht he
        by_cases hi : slot_index (name, score) col = i
        · subst hi
          rw [List.getElem?_set_self hlt] at ht
          rw [hcol0] at he
          cases ht
          cases he
          refine ⟨fun h => absurd h hnot, fun _ => entry_of_put_same k name score _⟩
        · rw [List.getElem?_set_ne hi] at ht
          have hne_e : e ≠ (name, score) := by
            intro heq
            subst heq
            have hi' : i < col.length := (List.getElem?_eq_some.1 he).1
            exact hi (List.getElem?_inj hi0 hnd (hcol0.trans he.symm))
          obtain ⟨h1, h2⟩ := hinv i t e ht he
          refine ⟨fun h => h1 (List.mem_cons_of_mem _ h), fun h => h2 ?_⟩
          intro hmem1
          rcases List.mem_cons.1 hmem1 with h3 | h3
          · exact hne_e h3
          · exact h h3)
    refine ⟨out, ?_, hmap⟩
    simp only [spread, hs, if_false, hd, hget]
    rw [hout, List.length_cons]
    congr 2
    omega

theorem team_selection_eq_of_entries (x y : team_selection)
    (h : ∀ k, x.entry_of k = y.entry_of k) : x = y := by
  have hc := h .compound
  have hr := h .recurve
  have hb := h .barebow
  simp only [team_selection.entry_of, team_selection.archer_of, team_selection.score_of,
    Prod.mk.injEq] at hc hr hb
  cases x
  cases y
  simp_all

theorem eq_of_map_entries (xs ys : List team_selection)
    (h : ∀ k, xs.map (team_selection.entry_of k) = ys.map (team_selection.entry_of k)) :
    xs = ys := by
  apply List.ext_getElem?
  intro i
  have hk : ∀ k, Option.map (team_selection.entry_of k) xs[i]? =
      Option.map (team_selection.entry_of k) ys[i]? := by
    intro k
    rw [← List.getElem?_map, ← List.getElem?_map, h k]
  cases hx : xs[i]? with
  | none =>
    cases hy : ys[i]? with
    | none => rfl
    | some y => have := hk .compound; simp [hx, hy] at this
  | some x =>
    cases hy : ys[i]? with
    | none => have := hk .compound; simp [hx, hy] at this
    | some y =>
      congr 1
      apply team_selection_eq_of_entries
      intro k
      have := hk k
      simpa [hx, hy] using this

/-- The facts about a roster and the column of a target assignment that a per-category
bijection provides. -/
theorem category_bijection_column (k : Style) (roster : Roster) (target : List team_selection)
    (hbij : category_bijection k roster target) :
    (target.map (team_selection.entry_of k)).Nodup ∧ roster.Nodup ∧
    roster.length = target.length ∧
    ∀ e ∈ roster, e ∈ target.map (team_selection.entry_of k) ∧ e.2 ≠ 0 := by
  obtain ⟨h1, h2, h3⟩ := hbij
  have hnd : (target.map (team_selection.entry_of k)).Nodup := by
    rw [List.nodup_iff_getElem?_ne_getElem?]
    intro i j hij hj heq
    rw [List.length_map] at hj
    have hgj : target[j]? = some target[j] := List.getElem?_eq_getElem hj
    have hgi : target[i]? = some target[i] := List.getElem?_eq_getElem (by omega)
    rw [List.getElem?_map, List.getElem?_map, hgi, hgj, Option.map_some', Option.map_some',
      Option.some.injEq] at heq
    have hin : (target[j]).entry_of k ∈ roster := (h1 _ (List.getElem_mem hj)).2
    obtain ⟨u, -, huniq⟩ := h3 _ hin
    have e1 := huniq i ⟨_, hgi, heq⟩
    have e2 := huniq j ⟨_, hgj, rfl⟩
    omega
  refine ⟨hnd, h2.nodup_iff.1 hnd, ?_, ?_⟩
  · rw [← h2.length_eq, List.length_map]
  · intro e he
    have hm := h2.mem_iff.2 he
    refine ⟨hm, ?_⟩
    obtain ⟨t, ht, rfl⟩ := List.mem_map.1 hm
    exact (h1 t ht).1

/-- One placement loop that is given, draw by draw, the target slots of its roster. -/
theorem spread_reaches_column (k : Style) (line : Nat) (rnd : Nat → Nat) (fuel : Nat)
    (roster : Roster) (target result : List team_selection) (pos : Nat)
    (hbij : category_bijection k roster target) (hlen : result.length = target.length)
    (hrnd : ∀ j e, roster[j]? = some e →
      rnd (pos + j) = slot_index e (target.map (team_selection.entry_of k)))
    (hempty : ∀ t ∈ result, t.score_of k = 0) :
    ∃ out, spread k line rnd (fuel + 1) roster result pos = .ok (out, pos + roster.length) ∧
      out.map (team_selection.entry_of k) = target.map (team_selection.entry_of k) := by
  obtain ⟨hnd, hrnd1, -, hmem⟩ := category_bijection_column k roster target hbij
  refine spread_reaches k line rnd fuel _ hnd roster result pos hrnd1 hmem
    (by rw [List.length_map]; exact hlen) hrnd ?_
  intro i t e ht he
  refine ⟨fun _ => hempty t (List.getElem?_mem ht), fun hne => ?_⟩
  exact absurd (hbij.2.1.mem_iff.1 (List.getElem?_mem he)) hne

theorem empty_of_map_eq (k : Style) (xs ys : List team_selection)
    (h : xs.map (team_selection.entry_of k) = ys.map (team_selection.entry_of k))
    (hy : ∀ t ∈ ys, t.score_of k = 0) : ∀ t ∈ xs, t.score_of k = 0 := by
  intro t ht
  have hm : t.entry_of k ∈ ys.map (team_selection.entry_of k) := by
    rw [← h]
    exact List.mem_map_of_mem _ ht
  obtain ⟨u, hu, hue⟩ := List.mem_map.1 hm
  have := hy u hu
  have h2 : (u.entry_of k).2 = (t.entry_of k).2 := by rw [hue]
  simp only [team_selection.entry_of] at h2
  omega

theorem clear_scores_empty (k : Style) (result : List team_selection) :
    ∀ t ∈ clear_scores result, t.score_of k = 0 := by
  intro t ht
  obtain ⟨i, hi⟩ := List.mem_iff_getElem?.1 ht
  exact score_of_clear_scores k result i t hi

/-- C19. The generator reaches the whole search space: for three rosters of the
cardinality of the vector and every assignment that is a per-category bijection of the
rosters onto the slots, there is a random stream on which `random_team_mapping` returns
exactly that assignment (the stream that names, roster entry by roster entry, the slot the
assignment gives to the entry). Positive scores follow from the bijection, and the
statement also holds for the vector with no slot. -/
theorem random_team_mapping_reaches (style_compound style_recurve style_barebow : Roster)
    (result target : List team_selection)
    (hc : style_compound.length = result.length) (hr : style_recurve.length = result.length)
    (hbc : category_bijection .compound style_compound target)
    (hbr : category_bijection .recurve style_recurve target)
    (hbb : category_bijection .barebow style_barebow target) :
    ∃ rnd fuel pos1,
      random_team_mapping style_compound style_recurve style_barebow result rnd fuel 0 =
        .ok (target, pos1) := by
  have hlen0 : (clear_scores result).length = result.length := by simp [clear_scores]
  have htc := (category_bijection_column _ _ _ hbc).2.2.1
  let rnd : Nat → Nat := fun i =>
    if i < style_compound.length then
      slot_index (style_compound.getD i default)
        (target.map (team_selection.entry_of .compound))
    else if i < style_compound.length + style_recurve.length then
      slot_index (style_recurve.getD (i - style_compound.length) default)
        (target.map (team_selection.entry_of .recurve))
    else
      slot_index (style_barebow.getD (i - style_compound.length - style_recurve.length) default)
        (target.map (team_selection.entry_of .barebow))
  have hrnd1 : ∀ j e, style_compound[j]? = some e →
      rnd (0 + j) = slot_index e (target.map (team_selection.entry_of .compound)) := by
    intro j e he
    have hj : j < style_compound.length := (List.getElem?_eq_some.1 he).1
    simp only [rnd, Nat.zero_add, hj, if_true, List.getD_eq_getElem?_getD, he, Option.getD_some]
  have hrnd2 : ∀ j e, style_recurve[j]? = some e →
      rnd (0 + style_compound.length + j) =
        slot_index e (target.map (team_selection.entry_of .recurve)) := by
    intro j e he
    have hj : j < style_recurve.length := (List.getElem?_eq_some.1 he).1
    have h1 : ¬ (0 + style_compound.length + j < style_compound.length) := by omega
    have h2 : 0 + style_compound.length + j < style_compound.length + style_recurve.length := by
      omega
    have h3 : 0 + style_compound.length + j - style_compound.length = j := by omega
    simp only [rnd, h1, h2, h3, if_true, if_false, List.getD_eq_getElem?_getD, he,
      Option.getD_some]
  have hrnd3 : ∀ j e, style_barebow[j]? = some e →
      rnd (0 + style_compound.length + style_recurve.length + j) =
        slot_index e (target.map (team_selection.entry_of .barebow)) := by
    intro j e he
    have h1 : ¬ (0 + style_compound.length + style_recurve.length + j <
        style_compound.length) := by omega
    have h2 : ¬ (0 + style_compound.length + style_recurve.length + j <
        style_compound.length + style_recurve.length) := by omega
    have h3 : 0 + style_compound.length + style_recurve.length + j - style_compound.length -
        style_recurve.length = j := by omega
    simp only [rnd, h1, h2, h3, if_false, List.getD_eq_getElem?_getD, he, Option.getD_some]
  obtain ⟨out1, hs1, hm1⟩ := spread_reaches_column .compound 108 rnd 0 style_compound target
    (clear_scores result) 0 hbc (by omega) hrnd1 (clear_scores_empty _ _)
  obtain ⟨l1, o1, -⟩ := spread_ok _ _ _ _ _ _ _ _ _ hs1
  obtain ⟨out2, hs2, hm2⟩ := spread_reaches_column .recurve 121 rnd 0 style_recurve target
    out1 (0 + style_compound.length) hbr (by omega) hrnd2
    (empty_of_map_eq _ _ _ (o1 .recurve (by decide)) (clear_scores_empty _ _))
  obtain ⟨l2, o2, -⟩ := spread_ok _ _ _ _ _ _ _ _ _ hs2
  obtain ⟨out3, hs3, hm3⟩ := spread_reaches_column .barebow 134 rnd 0 style_barebow target
    out2 (0 + style_compound.length + style_recurve.length) hbb (by omega) hrnd3
    (empty_of_map_eq _ _ _ ((o2 .barebow (by decide)).trans (o1 .barebow (by decide)))
      (clear_scores_empty _ _))
  obtain ⟨l3, o3, -⟩ := spread_ok _ _ _ _ _ _ _ _ _ hs3
  have hfin : out3 = target := by
    apply eq_of_map_entries
    intro k
    cases k with
    | compound => rw [o3 .compound (by decide), o2 .compound (by decide), hm1]
    | recurve => rw [o3 .recurve (by decide), hm2]
    | barebow => exact hm3
  refine ⟨rnd, 1, 0 + style_compound.length + style_recurve.length + style_barebow.length, ?_⟩
  unfold random_team_mapping
  simp only
  rw [if_neg (by omega)]
  simp only [hs1]
  rw [if_neg (by omega)]
  simp only [hs2]
  rw [if_neg (by omega), hs3, hfin]

/-- Witness of C19: three rosters of three archers and a target assignment with the slot
totals 60, 60 and 60. -/
theorem random_team_mapping_reaches_witness :
    ∃ rnd fuel pos1,
      random_team_mapping [("A", 10), ("B", 20), ("C", 30)] [("A", 10), ("B", 20), ("C", 30)]
        [("A", 10), ("B", 20), ("C", 30)] (List.replicate 3 blank_team) rnd fuel 0 =
        .ok ([⟨"A", 10, "B", 20, "C", 30⟩, ⟨"B", 20, "C", 30, "A", 10⟩,
          ⟨"C", 30, "A", 10, "B", 20⟩], pos1) :=
  random_team_mapping_reaches [("A", 10), ("B", 20), ("C", 30)]
    [("A", 10), ("B", 20), ("C", 30)] [("A", 10), ("B", 20), ("C", 30)]
    (List.replicate 3 blank_team)
    [⟨"A", 10, "B", 20, "C", 30⟩, ⟨"B", 20, "C", 30, "A", 10⟩, ⟨"C", 30, "A", 10, "B", 20⟩]
    (by decide) (by decide)
    (category_bijection_of_placed _ _ _ (by decide) (by decide) (by decide))
    (category_bijection_of_placed _ _ _ (by decide) (by decide) (by decide))
    (category_bijection_of_placed _ _ _ (by decide) (by decide) (by decide))

/-! ### The search loop: the log of a run -/

/-- Without its log, the logged loop is the search loop. -/
theorem search_loop_log_erase {σ : Type} (reset : Int)
    (gen : σ → Outcome (List team_selection × σ)) :
    ∀ (fuel : Nat) (g : σ) (st : SearchState) (log : List (List team_selection × Int)),
      search_loop reset gen fuel g st =
        (search_loop_log reset gen fuel g st log).map (fun r => (r.1, r.2.1)) := by
  intro fuel
  induction fuel with
  | zero =>
    intro g st log
    simp only [search_loop, search_loop_log]
    split <;> rfl
  | succ fuel ih =>
    intro g st log
    simp only [search_loop, search_loop_log]
    split
    · cases hg : gen g with
      | ok r =>
        obtain ⟨use_teams, g1⟩ := r
        cases hs : score_team_mapping use_teams with
        | ok use_score =>
          simp only [hs]
          exact ih _ _ _
        | assert_fail l => simp only [hs, Outcome.map]
        | undefined => simp only [hs, Outcome.map]
        | out_of_fuel => simp only [hs, Outcome.map]
      | assert_fail l => simp only [Outcome.map]
      | undefined => simp only [Outcome.map]
      | out_of_fuel => simp only [Outcome.map]
    · rfl

/-- Every run of the search loop that returns has a log. -/
theorem search_loop_has_log {σ : Type} (reset : Int)
    (gen : σ → Outcome (List team_selection × σ)) (fuel : Nat) (g : σ) (st : SearchState)
    (log : List (List team_selection × Int)) (st1 : SearchState) (g1 : σ)
    (h : search_loop reset gen fuel g st = .ok (st1, g1)) :
    ∃ log1, search_loop_log reset gen fuel g st log = .ok (st1, g1, log1) := by
  rw [search_loop_log_erase reset gen fuel g st log] at h
  cases hl : search_loop_log reset gen fuel g st log with
  | ok r =>
    obtain ⟨a, b, c⟩ := r
    rw [hl] at h
    simp only [Outcome.map, Outcome.ok.injEq, Prod.mk.injEq] at h
    obtain ⟨rfl, rfl⟩ := h
    exact ⟨c, rfl⟩
  | assert_fail l => rw [hl] at h; simp [Outcome.map] at h
  | undefined => rw [hl] at h; simp [Outcome.map] at h
  | out_of_fuel => rw [hl] at h; simp [Outcome.map] at h

/-- Unfolding of one trial of the logged loop. -/
theorem search_loop_log_cases {σ : Type} (reset : Int)
    (gen : σ → Outcome (List team_selection × σ)) (fuel : Nat) (g : σ) (st : SearchState)
    (log : List (List team_selection × Int))
    (r : SearchState × σ × List (List team_selection × Int))
    (h : search_loop_log reset gen (fuel + 1) g st log = .ok r) :
    (¬ st.timeout > 0 ∧ r = (st, g, log)) ∨
    (st.timeout > 0 ∧ ∃ use_teams g1 use_score, gen g = .ok (use_teams, g1) ∧
      score_team_mapping use_teams = .ok use_score ∧
      search_loop_log reset gen fuel g1 (search_trial reset st use_teams use_score)
        (log ++ [(use_teams, use_score)]) = .ok r) := by
  simp only [search_loop_log] at h
  by_cases hpos : st.timeout > 0
  · right
    refine ⟨hpos, ?_⟩
    simp only [hpos, if_true] at h
    cases hg : gen g with
    | ok res =>
      obtain ⟨use_teams, g1⟩ := res
      cases hs : score_team_mapping use_teams with
      | ok use_score =>
        simp only [hg, hs] at h
        exact ⟨use_teams, g1, use_score, rfl, hs, h⟩
      | assert_fail l => simp [hg, hs] at h
      | undefined => simp [hg, hs] at h
      | out_of_fuel => simp [hg, hs] at h
    | assert_fail l => simp [hg] at h
    | undefined => simp [hg] at h
    | out_of_fuel => simp [hg] at h
  · left
    simp only [hpos, if_false, Outcome.ok.injEq] at h
    exact ⟨hpos, h.symm⟩

theorem search_loop_log_zero {σ : Type} (reset : Int)
    (gen : σ → Outcome (List team_selection × σ)) (g : σ) (st : SearchState)
    (log : List (List team_selection × Int))
    (r : SearchState × σ × List (List team_selection × Int))
    (h : search_loop_log reset gen 0 g st log = .ok r) :
    ¬ st.timeout > 0 ∧ r = (st, g, log) := by
  simp only [search_loop_log] at h
  by_cases hpos : st.timeout > 0
  · simp [hpos] at h
  · simp only [hpos, if_false, Outcome.ok.injEq] at h
    exact ⟨hpos, h.symm⟩

/-- Along a run that starts with a countdown of `reset - k` after `k` consecutive
non-improving trials, the loop returns exactly when the streak reaches `reset`. -/
theorem search_loop_log_streak {σ : Type} (reset : Int)
    (gen : σ → Outcome (List team_selection × σ)) :
    ∀ (fuel : Nat) (g : σ) (st : SearchState) (log : List (List team_selection × Int))
      (st1 : SearchState) (g1 : σ) (log1 : List (List team_selection × Int)) (k : Nat),
      st.timeout = reset - k → (k : Int) ≤ reset →
      search_loop_log reset gen fuel g st log = .ok (st1, g1, log1) →
      ∃ new, log1 = log ++ new ∧
        (streak_after st.candidate_score k new : Int) = reset ∧
        ∀ p q, new = p ++ q → q ≠ [] → (streak_after st.candidate_score k p : Int) < reset := by
  have stop : ∀ (g : σ) (st : SearchState) (log : List (List team_selection × Int))
      (st1 : SearchState) (g1 : σ) (log1 : List (List team_selection × Int)) (k : Nat),
      st.timeout = reset - k → (k : Int) ≤ reset → ¬ st.timeout > 0 →
      (st1, g1, log1) = (st, g, log) →
      ∃ new, log1 = log ++ new ∧
        (streak_after st.candidate_score k new : Int) = reset ∧
        ∀ p q, new = p ++ q → q ≠ [] → (streak_after st.candidate_score k p : Int) < reset := by
    intro g st log st1 g1 log1 k ht hk hpos heq
    simp only [Prod.mk.injEq] at heq
    obtain ⟨-, -, rfl⟩ := heq
    refine ⟨[], by simp, ?_, ?_⟩
    · simp only [streak_after]
      omega
    · intro p q hpq hq
      have : q = [] := (List.append_eq_nil.1 hpq.symm).2
      exact absurd this hq
  intro fuel
  induction fuel with
  | zero =>
    intro g st log st1 g1 log1 k ht hk h
    obtain ⟨hpos, heq⟩ := search_loop_log_zero reset gen g st log _ h
    exact stop g st log st1 g1 log1 k ht hk hpos heq
  | succ fuel ih =>
    intro g st log st1 g1 log1 k ht hk h
    rcases search_loop_log_cases reset gen fuel g st log _ h with
      ⟨hpos, heq⟩ | ⟨hpos, use_teams, g2, use_score, -, -, hrun⟩
    · exact stop g st log st1 g1 log1 k ht hk hpos heq
    · by_cases himp : use_score < st.candidate_score
      · have hst : search_trial reset st use_teams use_score =
            { candidate_teams := use_teams, candidate_score := use_score, timeout := reset } := by
          simp only [search_trial, himp, if_true]
        rw [hst] at hrun
        obtain ⟨new, hlog, hs, hp⟩ := ih g2 _ _ st1 g1 log1 0 (by simp) (by omega) hrun
        simp only at hs hp
        refine ⟨(use_teams, use_score) :: new, by rw [hlog]; simp, ?_, ?_⟩
        · simp only [streak_after, himp, if_true]
          exact hs
        · intro p q hpq hq
          cases p with
          | nil => simp only [streak_after]; omega
          | cons x p =>
            simp only [List.cons_append, List.cons.injEq] at hpq
            obtain ⟨rfl, hpq⟩ := hpq
            simp only [streak_after, himp, if_true]
            exact hp p q hpq hq
      · have hst : search_trial reset st use_teams use_score =
            { st with timeout := st.timeout - 1 } := by
          simp only [search_trial, himp, if_false]
        rw [hst] at hrun
        obtain ⟨new, hlog, hs, hp⟩ := ih g2 _ _ st1 g1 log1 (k + 1)
          (by simp only; push_cast; omega) (by push_cast; omega) hrun
        simp only at hs hp
        refine ⟨(use_teams, use_score) :: new, by rw [hlog]; simp, ?_, ?_⟩
        · simp only [streak_after, himp, if_false]
          exact hs
        · intro p q hpq hq
          cases p with
          | nil => simp only [streak_after]; omega
          | cons x p =>
            simp only [List.cons_append, List.cons.injEq] at hpq
            obtain ⟨rfl, hpq⟩ := hpq
            simp only [streak_after, himp, if_false]
            exact hp p q hpq hq

/-- One trial keeps the property that the state retains the earliest best entry. -/
theorem retains_earliest_best_trial (reset : Int) (hist : List (List team_selection × Int))
    (st : SearchState) (use_teams : List team_selection) (use_score : Int)
    (h : retains_earliest_best hist st) :
    retains_earliest_best (hist ++ [(use_teams, use_score)])
      (search_trial reset st use_teams use_score) := by
  obtain ⟨before, later, heq, hb, hl⟩ := h
  by_cases himp : use_score < st.candidate_score
  · simp only [search_trial, himp, if_true]
    refine ⟨hist, [], rfl, ?_, by simp⟩
    intro x hx
    simp only
    rw [heq] at hx
    rcases List.mem_append.1 hx with h1 | h1
    · have := hb x h1
      omega
    · rcases List.mem_cons.1 h1 with h2 | h2
      · rw [h2]
        simpa using himp
      · have := hl x h2
        omega
  · simp only [search_trial, himp, if_false]
    refine ⟨before, later ++ [(use_teams, use_score)], by rw [heq]; simp, hb, ?_⟩
    intro x hx
    rcases List.mem_append.1 hx with h1 | h1
    · exact hl x h1
    · simp only [List.mem_singleton] at h1
      rw [h1]
      simp only
      omega

/-- On return the state retains the earliest best entry of the whole history, and every
logged candidate carries the score the scorer gave it. -/
theorem search_loop_log_best {σ : Type} (reset : Int)
    (gen : σ → Outcome (List team_selection × σ)) :
    ∀ (fuel : Nat) (g : σ) (st : SearchState) (log : List (List team_selection × Int))
      (st1 : SearchState) (g1 : σ) (log1 : List (List team_selection × Int))
      (hist : List (List team_selection × Int)),
      retains_earliest_best (hist ++ log) st →
      search_loop_log reset gen fuel g st log = .ok (st1, g1, log1) →
      ∃ new, log1 = log ++ new ∧ retains_earliest_best (hist ++ log1) st1 ∧
        (∀ x ∈ new, score_team_mapping x.1 = .ok x.2) ∧ st1.timeout ≤ 0 := by
  intro fuel
  induction fuel with
  | zero =>
    intro g st log st1 g1 log1 hist hr h
    obtain ⟨hpos, heq⟩ := search_loop_log_zero reset gen g st log _ h
    simp only [Prod.mk.injEq] at heq
    obtain ⟨rfl, -, rfl⟩ := heq
    exact ⟨[], by simp, hr, by simp, by omega⟩
  | succ fuel ih =>
    intro g st log st1 g1 log1 hist hr h
    rcases search_loop_log_cases reset gen fuel g st log _ h with
      ⟨hpos, heq⟩ | ⟨hpos, use_teams, g2, use_score, -, hs, hrun⟩
    · simp only [Prod.mk.injEq] at heq
      obtain ⟨rfl, -, rfl⟩ := heq
      exact ⟨[], by simp, hr, by simp, by omega⟩
    · have hr1 := retains_earliest_best_trial reset (hist ++ log) st use_teams use_score hr
      rw [List.append_assoc] at hr1
      obtain ⟨new, hlog, hbest, hsc, hdone⟩ := ih g2 _ _ st1 g1 log1 hist hr1 hrun
      refine ⟨(use_teams, use_score) :: new, by rw [hlog]; simp, hbest, ?_, hdone⟩
      intro x hx
      rcases List.mem_cons.1 hx with h1 | h1
      · rw [h1]
        exact hs
      · exact hsc x h1

/-- A run only appends to its log. -/
theorem search_loop_log_extends {σ : Type} (reset : Int)
    (gen : σ → Outcome (List team_selection × σ)) :
    ∀ (fuel : Nat) (g : σ) (st : SearchState) (log : List (List team_selection × Int))
      (st1 : SearchState) (g1 : σ) (log1 : List (List team_selection × Int)),
      search_loop_log reset gen fuel g st log = .ok (st1, g1, log1) →
      ∃ new, log1 = log ++ new := by
  intro fuel
  induction fuel with
  | zero =>
    intro g st log st1 g1 log1 h
    obtain ⟨-, heq⟩ := search_loop_log_zero reset gen g st log _ h
    simp only [Prod.mk.injEq] at heq
    exact ⟨[], by simp [heq.2.2]⟩
  | succ fuel ih =>
    intro g st log st1 g1 log1 h
    rcases search_loop_log_cases reset gen fuel g st log _ h with
      ⟨-, heq⟩ | ⟨-, use_teams, g2, use_score, -, -, hrun⟩
    · simp only [Prod.mk.injEq] at heq
      exact ⟨[], by simp [heq.2.2]⟩
    · obtain ⟨new, hlog⟩ := ih _ _ _ _ _ _ hrun
      exact ⟨(use_teams, use_score) :: new, by rw [hlog]; simp⟩

/-- The number of trials and of improvements of a run whose scores are not negative. -/
theorem search_loop_log_count {σ : Type} (reset : Int) (hreset : 0 ≤ reset)
    (gen : σ → Outcome (List team_selection × σ)) :
    ∀ (fuel : Nat) (g : σ) (st : SearchState) (log : List (List team_selection × Int))
      (st1 : SearchState) (g1 : σ) (log1 : List (List team_selection × Int)),
      0 ≤ st.candidate_score → st.timeout ≤ reset →
      search_loop_log reset gen fuel g st log = .ok (st1, g1, log1) →
      ∃ new, log1 = log ++ new ∧
        ((∀ x ∈ new, 0 ≤ x.2) →
          (new.length : Int) ≤ st.candidate_score * reset + max st.timeout 0 ∧
          (improvements st.candidate_score new : Int) ≤ st.candidate_score) := by
  intro fuel
  induction fuel with
  | zero =>
    intro g st log st1 g1 log1 hs0 ht h
    obtain ⟨hpos, heq⟩ := search_loop_log_zero reset gen g st log _ h
    simp only [Prod.mk.injEq] at heq
    obtain ⟨-, -, rfl⟩ := heq
    refine ⟨[], by simp, fun _ => ?_⟩
    have := mul_nonneg hs0 hreset
    simp only [List.length_nil, improvements]
    constructor
    · have := le_max_right st.timeout 0
      push_cast
      omega
    · exact_mod_cast hs0
  | succ fuel ih =>
    intro g st log st1 g1 log1 hs0 ht h
    rcases search_loop_log_cases reset gen fuel g st log _ h with
      ⟨hpos, heq⟩ | ⟨hpos, use_teams, g2, use_score, -, -, hrun⟩
    · simp only [Prod.mk.injEq] at heq
      obtain ⟨-, -, rfl⟩ := heq
      refine ⟨[], by simp, fun _ => ?_⟩
      have := mul_nonneg hs0 hreset
      simp only [List.length_nil, improvements]
      constructor
      · have := le_max_right st.timeout 0
        push_cast
        omega
      · exact_mod_cast hs0
    · by_cases himp : use_score < st.candidate_score
      · have hst : search_trial reset st use_teams use_score =
            { candidate_teams := use_teams, candidate_score := use_score, timeout := reset } := by
          simp only [search_trial, himp, if_true]
        rw [hst] at hrun
        by_cases hus : 0 ≤ use_score
        · obtain ⟨new, hlog, hcount⟩ := ih g2 _ _ st1 g1 log1 hus (le_refl _) hrun
          simp only at hcount
          refine ⟨(use_teams, use_score) :: new, by rw [hlog]; simp, fun hall => ?_⟩
          obtain ⟨h1, h2⟩ := hcount (fun x hx => hall x (List.mem_cons_of_mem _ hx))
          have hmax : max reset 0 = reset := max_eq_left hreset
          have hmax2 : max st.timeout 0 = st.timeout := max_eq_left (by omega)
          have hmul : (use_score + 1) * reset ≤ st.candidate_score * reset :=
            mul_le_mul_of_nonneg_right (by omega) hreset
          rw [hmax] at h1
          rw [hmax2]
          simp only [List.length_cons, improvements, himp, if_true]
          push_cast
          constructor
          · nlinarith
          · omega
        · obtain ⟨new, hlog⟩ := search_loop_log_extends reset gen fuel g2 _ _ st1 g1 log1 hrun
          refine ⟨(use_teams, use_score) :: new, by rw [hlog]; simp, fun hall => ?_⟩
          exact absurd (hall (use_teams, use_score) (List.mem_cons_self _ _)) hus
      · have hst : search_trial reset st use_teams use_score =
            { st with timeout := st.timeout - 1 } := by
          simp only [search_trial, himp, if_false]
        rw [hst] at hrun
        obtain ⟨new, hlog, hcount⟩ := ih g2 { st with timeout := st.timeout - 1 } _ st1 g1 log1
          hs0 (by simp only; omega) hrun
        simp only at hcount
        refine ⟨(use_teams, use_score) :: new, by rw [hlog]; simp, fun hall => ?_⟩
        obtain ⟨h1, h2⟩ := hcount (fun x hx => hall x (List.mem_cons_of_mem _ hx))
        have hmax : max (st.timeout - 1) 0 = st.timeout - 1 := max_eq_left (by omega)
        have hmax2 : max st.timeout 0 = st.timeout := max_eq_left (by omega)
        rw [hmax] at h1
        rw [hmax2]
        simp only [List.length_cons, improvements, himp, if_false]
        push_cast
        constructor
        · omega
        · exact h2

/-- A run of `main` that returns is a generation and scoring of the initial assignment
followed by a run of the search loop, which has a log. -/
theorem main_search_with_log (reset : Int) (style_compound style_recurve style_barebow : Roster)
    (generate : List team_selection → Nat → Outcome (List team_selection × Nat))
    (fuel : Nat) (st : SearchState) (p : Nat)
    (h : main_search_with reset style_compound style_recurve style_barebow generate fuel =
      .ok (st, p)) :
    ∃ teams0 pos0 score0 log,
      generate (List.replicate style_compound.length blank_team) 0 = .ok (teams0, pos0) ∧
      score_team_mapping teams0 = .ok score0 ∧
      search_loop_log reset (fun q => generate (List.replicate teams0.length blank_team) q)
        fuel pos0 { candidate_teams := teams0, candidate_score := score0, timeout := reset }
        [] = .ok (st, p, log) := by
  unfold main_search_with at h
  split at h
  · cases h
  · split at h
    · cases h
    · cases hg : generate (List.replicate style_compound.length blank_team) 0 with
      | ok res =>
        obtain ⟨teams0, pos0⟩ := res
        cases hs : score_team_mapping teams0 with
        | ok score0 =>
          simp only [hg, hs] at h
          obtain ⟨log, hlog⟩ := search_loop_has_log reset _ fuel pos0 _ [] st p h
          exact ⟨teams0, pos0, score0, log, rfl, hs, hlog⟩
        | assert_fail l => simp [hg, hs] at h
        | undefined => simp [hg, hs] at h
        | out_of_fuel => simp [hg, hs] at h
      | assert_fail l => simp [hg] at h
      | undefined => simp [hg] at h
      | out_of_fuel => simp [hg] at h

/-- C16. A trial whose candidate score is less than the best score replaces the best
assignment and score and sets the countdown to `reset`; every other trial (ties included)
leaves the best assignment and score as they are and lowers the countdown by exactly 1.
A run of the search loop that starts with the countdown `reset > 0` stops exactly when
`reset` consecutive non-improving trials have occurred since the last improvement or the
start: the streak at the end of its log is `reset`, and at every earlier point of the log
it is less than `reset`. The same holds for the run of the loop in `main`. -/
theorem search_loop_stops_after_streak {σ : Type} (reset : Int)
    (gen : σ → Outcome (List team_selection × σ)) :
    (∀ (st : SearchState) (use_teams : List team_selection) (use_score : Int),
      (use_score < st.candidate_score →
        search_trial reset st use_teams use_score =
          { candidate_teams := use_teams, candidate_score := use_score, timeout := reset }) ∧
      (st.candidate_score ≤ use_score →
        search_trial reset st use_teams use_score =
          { candidate_teams := st.candidate_teams, candidate_score := st.candidate_score,
            timeout := st.timeout - 1 })) ∧
    (∀ (fuel : Nat) (g : σ) (teams0 : List team_selection) (score0 : Int)
      (st1 : SearchState) (g1 : σ) (log1 : List (List team_selection × Int)),
      0 < reset →
      search_loop_log reset gen fuel g
        { candidate_teams := teams0, candidate_score := score0, timeout := reset } [] =
        .ok (st1, g1, log1) →
      (streak_after score0 0 log1 : Int) = reset ∧
      ∀ p q, log1 = p ++ q → q ≠ [] → (streak_after score0 0 p : Int) < reset) ∧
    (∀ (style_compound style_recurve style_barebow : Roster)
      (generate : List team_selection → Nat → Outcome (List team_selection × Nat))
      (fuel : Nat) (st : SearchState) (p : Nat),
      0 < reset →
      main_search_with reset style_compound style_recurve style_barebow generate fuel =
        .ok (st, p) →
      ∃ teams0 pos0 score0 log,
        generate (List.replicate style_compound.length blank_team) 0 = .ok (teams0, pos0) ∧
        score_team_mapping teams0 = .ok score0 ∧
        search_loop_log reset (fun q => generate (List.replicate teams0.length blank_team) q)
          fuel pos0 { candidate_teams := teams0, candidate_score := score0, timeout := reset }
          [] = .ok (st, p, log) ∧
        (streak_after score0 0 log : Int) = reset ∧
        ∀ p1 q, log = p1 ++ q → q ≠ [] → (streak_after score0 0 p1 : Int) < reset) := by
  refine ⟨?_, ?_, ?_⟩
  · intro st use_teams use_score
    constructor
    · intro h
      simp only [search_trial, h, if_true]
    · intro h
      have : ¬ use_score < st.candidate_score := by omega
      simp only [search_trial, this, if_false]
  · intro fuel g teams0 score0 st1 g1 log1 hreset h
    obtain ⟨new, hlog, hs, hp⟩ := search_loop_log_streak reset gen fuel g _ [] st1 g1 log1 0
      (by simp) (by simp; omega) h
    rw [List.nil_append] at hlog
    subst hlog
    exact ⟨hs, hp⟩
  · intro c r b generate fuel st p hreset h
    obtain ⟨teams0, pos0, score0, log, hg, hsc, hlog⟩ :=
      main_search_with_log reset c r b generate fuel st p h
    obtain ⟨new, hnew, hs, hp⟩ := search_loop_log_streak reset _ fuel pos0 _ [] st p log 0
      (by simp) (by simp; omega) hlog
    rw [List.nil_append] at hnew
    subst hnew
    exact ⟨teams0, pos0, score0, log, hg, hsc, hlog, hs, hp⟩

/-- Witness of C16: the search loop with patience 2 on three rosters of two archers and the
random stream `i ↦ i + i / 10`, started with the score 30. The trial scores are 10
(improving), 30 and 10 (a tie): the loop stops after the third trial. -/
theorem search_loop_stops_after_streak_witness :
    (streak_after 30 0
      [([⟨"A", 10, "C", 10, "F", 20⟩, ⟨"B", 20, "D", 20, "E", 10⟩], 10),
      ([⟨"B", 20, "D", 20, "F", 20⟩, ⟨"A", 10, "C", 10, "E", 10⟩], 30),
      ([⟨"B", 20, "C", 10, "E", 10⟩, ⟨"A", 10, "D", 20, "F", 20⟩], 10)] : Int) = 2 ∧
    ∀ p q,
      [([⟨"A", 10, "C", 10, "F", 20⟩, ⟨"B", 20, "D", 20, "E", 10⟩], 10),
      ([⟨"B", 20, "D", 20, "F", 20⟩, ⟨"A", 10, "C", 10, "E", 10⟩], 30),
      ([⟨"B", 20, "C", 10, "E", 10⟩, ⟨"A", 10, "D", 20, "F", 20⟩], 10)] = p ++ q → q ≠ [] → (streak_after 30 0 p : Int) < 2 :=
  (search_loop_stops_after_streak 2
    (fun q => random_team_mapping [("A", 10), ("B", 20)] [("C", 10), ("D", 20)]
      [("E", 10), ("F", 20)] (List.replicate 2 blank_team) (fun i => i + i / 10) 5 q)).2.1 4 6
    [⟨"A", 10, "C", 10, "E", 10⟩, ⟨"B", 20, "D", 20, "F", 20⟩] 30
    { candidate_teams := [⟨"A", 10, "C", 10, "F", 20⟩, ⟨"B", 20, "D", 20, "E", 10⟩],
      candidate_score := 10, timeout := 0 }
    24
    [([⟨"A", 10, "C", 10, "F", 20⟩, ⟨"B", 20, "D", 20, "E", 10⟩], 10),
      ([⟨"B", 20, "D", 20, "F", 20⟩, ⟨"A", 10, "C", 10, "E", 10⟩], 30),
      ([⟨"B", 20, "C", 10, "E", 10⟩, ⟨"A", 10, "D", 20, "F", 20⟩], 10)]
    (by decide) (by decide)

/-- The least score of a history and the place of the retained entry. -/
theorem retains_earliest_best_min (hist : List (List team_selection × Int)) (st : SearchState)
    (h : retains_earliest_best hist st) :
    (st.candidate_teams, st.candidate_score) ∈ hist ∧
    ∀ x ∈ hist, st.candidate_score ≤ x.2 := by
  obtain ⟨before, later, heq, hb, hl⟩ := h
  refine ⟨by rw [heq]; simp, ?_⟩
  intro x hx
  rw [heq] at hx
  rcases List.mem_append.1 hx with h1 | h1
  · exact le_of_lt (hb x h1)
  · rcases List.mem_cons.1 h1 with h2 | h2
    · rw [h2]
    · exact hl x h2

/-- C17. When the search loop returns, the retained `candidate_score` is the minimum of
the scores of all assignments generated during the run (the initial one and every trial's
candidate), the retained `candidate_teams` is the earliest generated assignment that
attains this minimum (every assignment generated before it has a greater score), and
`candidate_score` is `score_team_mapping` of `candidate_teams`. The same holds for the run
of the loop in `main`. -/
theorem search_loop_retains_earliest_best {σ : Type} (reset : Int)
    (gen : σ → Outcome (List team_selection × σ)) :
    (∀ (fuel : Nat) (g : σ) (teams0 : List team_selection) (score0 timeout0 : Int)
      (st1 : SearchState) (g1 : σ) (log1 : List (List team_selection × Int)),
      search_loop_log reset gen fuel g
        { candidate_teams := teams0, candidate_score := score0, timeout := timeout0 } [] =
        .ok (st1, g1, log1) →
      (st1.candidate_teams, st1.candidate_score) ∈ (teams0, score0) :: log1 ∧
      (∀ x ∈ (teams0, score0) :: log1, st1.candidate_score ≤ x.2) ∧
      retains_earliest_best ((teams0, score0) :: log1) st1 ∧
      (score_team_mapping teams0 = .ok score0 →
        score_team_mapping st1.candidate_teams = .ok st1.candidate_score)) ∧
    (∀ (style_compound style_recurve style_barebow : Roster)
      (generate : List team_selection → Nat → Outcome (List team_selection × Nat))
      (fuel : Nat) (st : SearchState) (p : Nat),
      main_search_with reset style_compound style_recurve style_barebow generate fuel =
        .ok (st, p) →
      ∃ teams0 pos0 score0 log,
        generate (List.replicate style_compound.length blank_team) 0 = .ok (teams0, pos0) ∧
        score_team_mapping teams0 = .ok score0 ∧
        search_loop_log reset (fun q => generate (List.replicate teams0.length blank_team) q)
          fuel pos0 { candidate_teams := teams0, candidate_score := score0, timeout := reset }
          [] = .ok (st, p, log) ∧
        (∀ x ∈ (teams0, score0) :: log, st.candidate_score ≤ x.2) ∧
        retains_earliest_best ((teams0, score0) :: log) st ∧
        score_team_mapping st.candidate_teams = .ok st.candidate_score) := by
  have key : ∀ (τ : Type) (gen1 : τ → Outcome (List team_selection × τ)) (fuel : Nat) (g : τ)
      (teams0 : List team_selection) (score0 timeout0 : Int)
      (st1 : SearchState) (g1 : τ) (log1 : List (List team_selection × Int)),
      search_loop_log reset gen1 fuel g
        { candidate_teams := teams0, candidate_score := score0, timeout := timeout0 } [] =
        .ok (st1, g1, log1) →
      (st1.candidate_teams, st1.candidate_score) ∈ (teams0, score0) :: log1 ∧
      (∀ x ∈ (teams0, score0) :: log1, st1.candidate_score ≤ x.2) ∧
      retains_earliest_best ((teams0, score0) :: log1) st1 ∧
      (score_team_mapping teams0 = .ok score0 →
        score_team_mapping st1.candidate_teams = .ok st1.candidate_score) := by
    intro τ gen1 fuel g teams0 score0 timeout0 st1 g1 log1 h
    obtain ⟨new, hnew, hbest, hsc, -⟩ := search_loop_log_best reset gen1 fuel g
      { candidate_teams := teams0, candidate_score := score0, timeout := timeout0 } [] st1 g1
      log1 [(teams0, score0)] ⟨[], [], by simp, by simp, by simp⟩ h
    rw [List.nil_append] at hnew
    subst hnew
    simp only [List.singleton_append] at hbest
    obtain ⟨hmem, hmin⟩ := retains_earliest_best_min _ _ hbest
    refine ⟨hmem, hmin, hbest, ?_⟩
    intro h0
    rcases List.mem_cons.1 hmem with h1 | h1
    · simp only [Prod.mk.injEq] at h1
      rw [h1.1, h1.2]
      exact h0
    · exact hsc _ h1
  refine ⟨key σ gen, ?_⟩
  intro c r b generate fuel st p h
  obtain ⟨teams0, pos0, score0, log, hg, hsc, hlog⟩ :=
    main_search_with_log reset c r b generate fuel st p h
  obtain ⟨-, hmin, hbest, hscore⟩ := key _ _ fuel pos0 teams0 score0 reset st p log hlog
  exact ⟨teams0, pos0, score0, log, hg, hsc, hlog, hmin, hbest, hscore hsc⟩

/-- Witness of C17: the run of the witness of C16; the retained assignment is the first
trial's candidate, of score 10, and the third trial's candidate of the same score is not
taken. -/
theorem search_loop_retains_earliest_best_witness :
    (([⟨"A", 10, "C", 10, "F", 20⟩, ⟨"B", 20, "D", 20, "E", 10⟩] : List team_selection),
        (10 : Int)) ∈
      (([⟨"A", 10, "C", 10, "E", 10⟩, ⟨"B", 20, "D", 20, "F", 20⟩] : List team_selection), (30 : Int)) ::
      [([⟨"A", 10, "C", 10, "F", 20⟩, ⟨"B", 20, "D", 20, "E", 10⟩], 10),
      ([⟨"B", 20, "D", 20, "F", 20⟩, ⟨"A", 10, "C", 10, "E", 10⟩], 30),
      ([⟨"B", 20, "C", 10, "E", 10⟩, ⟨"A", 10, "D", 20, "F", 20⟩], 10)] ∧
    (∀ x ∈ (([⟨"A", 10, "C", 10, "E", 10⟩, ⟨"B", 20, "D", 20, "F", 20⟩] : List team_selection), (30 : Int)) ::
      [([⟨"A", 10, "C", 10, "F", 20⟩, ⟨"B", 20, "D", 20, "E", 10⟩], 10),
      ([⟨"B", 20, "D", 20, "F", 20⟩, ⟨"A", 10, "C", 10, "E", 10⟩], 30),
      ([⟨"B", 20, "C", 10, "E", 10⟩, ⟨"A", 10, "D", 20, "F", 20⟩], 10)], (10 : Int) ≤ x.2) ∧
    retains_earliest_best
      ((([⟨"A", 10, "C", 10, "E", 10⟩, ⟨"B", 20, "D", 20, "F", 20⟩] : List team_selection), (30 : Int)) ::
      [([⟨"A", 10, "C", 10, "F", 20⟩, ⟨"B", 20, "D", 20, "E", 10⟩], 10),
      ([⟨"B", 20, "D", 20, "F", 20⟩, ⟨"A", 10, "C", 10, "E", 10⟩], 30),
      ([⟨"B", 20, "C", 10, "E", 10⟩, ⟨"A", 10, "D", 20, "F", 20⟩], 10)])
      { candidate_teams := [⟨"A", 10, "C", 10, "F", 20⟩, ⟨"B", 20, "D", 20, "E", 10⟩],
        candidate_score := 10, timeout := 0 } ∧
    (score_team_mapping [⟨"A", 10, "C", 10, "E", 10⟩, ⟨"B", 20, "D", 20, "F", 20⟩] = .ok 30 →
      score_team_mapping [⟨"A", 10, "C", 10, "F", 20⟩, ⟨"B", 20, "D", 20, "E", 10⟩] =
        .ok 10) :=
  (search_loop_retains_earliest_best 2
    (fun q => random_team_mapping [("A", 10), ("B", 20)] [("C", 10), ("D", 20)]
      [("E", 10), ("F", 20)] (List.replicate 2 blank_team) (fun i => i + i / 10) 5 q)).1 4 6
    [⟨"A", 10, "C", 10, "E", 10⟩, ⟨"B", 20, "D", 20, "F", 20⟩] 30 2
    { candidate_teams := [⟨"A", 10, "C", 10, "F", 20⟩, ⟨"B", 20, "D", 20, "E", 10⟩],
      candidate_score := 10, timeout := 0 }
    24
    [([⟨"A", 10, "C", 10, "F", 20⟩, ⟨"B", 20, "D", 20, "E", 10⟩], 10),
      ([⟨"B", 20, "D", 20, "F", 20⟩, ⟨"A", 10, "C", 10, "E", 10⟩], 30),
      ([⟨"B", 20, "C", 10, "E", 10⟩, ⟨"A", 10, "D", 20, "F", 20⟩], 10)]
    (by decide)

/-- C18. When all scores are non-negative, a run of the search loop that starts with the
score `score0` and the countdown `reset > 0` performs at most `(score0 + 1) * reset` trials
(entries of its log), of which at most `score0` are improvements. The same holds for the
run of the loop in `main`. -/
theorem search_loop_trial_bound {σ : Type} (reset : Int)
    (gen : σ → Outcome (List team_selection × σ)) :
    (∀ (fuel : Nat) (g : σ) (teams0 : List team_selection) (score0 : Int)
      (st1 : SearchState) (g1 : σ) (log1 : List (List team_selection × Int)),
      0 < reset → 0 ≤ score0 →
      search_loop_log reset gen fuel g
        { candidate_teams := teams0, candidate_score := score0, timeout := reset } [] =
        .ok (st1, g1, log1) →
      (∀ x ∈ log1, 0 ≤ x.2) →
      (log1.length : Int) ≤ (score0 + 1) * reset ∧ (improvements score0 log1 : Int) ≤ score0) ∧
    (∀ (style_compound style_recurve style_barebow : Roster)
      (generate : List team_selection → Nat → Outcome (List team_selection × Nat))
      (fuel : Nat) (st : SearchState) (p : Nat),
      0 < reset →
      main_search_with reset style_compound style_recurve style_barebow generate fuel =
        .ok (st, p) →
      ∃ teams0 pos0 score0 log,
        generate (List.replicate style_compound.length blank_team) 0 = .ok (teams0, pos0) ∧
        score_team_mapping teams0 = .ok score0 ∧
        search_loop_log reset (fun q => generate (List.replicate teams0.length blank_team) q)
          fuel pos0 { candidate_teams := teams0, candidate_score := score0, timeout := reset }
          [] = .ok (st, p, log) ∧
        ((∀ x ∈ (teams0, score0) :: log, 0 ≤ x.2) →
          (log.length : Int) ≤ (score0 + 1) * reset ∧
          (improvements score0 log : Int) ≤ score0)) := by
  have key : ∀ (τ : Type) (gen1 : τ → Outcome (List team_selection × τ)) (fuel : Nat) (g : τ)
      (teams0 : List team_selection) (score0 : Int)
      (st1 : SearchState) (g1 : τ) (log1 : List (List team_selection × Int)),
      0 < reset → 0 ≤ score0 →
      search_loop_log reset gen1 fuel g
        { candidate_teams := teams0, candidate_score := score0, timeout := reset } [] =
        .ok (st1, g1, log1) →
      (∀ x ∈ log1, 0 ≤ x.2) →
      (log1.length : Int) ≤ (score0 + 1) * reset ∧
        (improvements score0 log1 : Int) ≤ score0 := by
    intro τ gen1 fuel g teams0 score0 st1 g1 log1 hreset hs0 h hall
    obtain ⟨new, hnew, hcount⟩ := search_loop_log_count reset (le_of_lt hreset) gen1 fuel g _ []
      st1 g1 log1 hs0 (le_refl _) h
    rw [List.nil_append] at hnew
    subst hnew
    obtain ⟨h1, h2⟩ := hcount hall
    simp only at h1 h2
    rw [max_eq_left (le_of_lt hreset)] at h1
    refine ⟨?_, h2⟩
    have : (score0 + 1) * reset = score0 * reset + reset := by ring
    rw [this]
    exact h1
  refine ⟨key σ gen, ?_⟩
  intro c r b generate fuel st p hreset h
  obtain ⟨teams0, pos0, score0, log, hg, hsc, hlog⟩ :=
    main_search_with_log reset c r b generate fuel st p h
  refine ⟨teams0, pos0, score0, log, hg, hsc, hlog, ?_⟩
  intro hall
  exact key _ _ fuel pos0 teams0 score0 st p log hreset
    (hall (teams0, score0) (List.mem_cons_self _ _)) hlog
    (fun x hx => hall x (List.mem_cons_of_mem _ hx))

/-- Witness of C18: the run of the witness of C16, with initial score 30 and patience 2:
three trials and one improvement. -/
theorem search_loop_trial_bound_witness :
    (([([⟨"A", 10, "C", 10, "F", 20⟩, ⟨"B", 20, "D", 20, "E", 10⟩], 10),
      ([⟨"B", 20, "D", 20, "F", 20⟩, ⟨"A", 10, "C", 10, "E", 10⟩], 30),
      ([⟨"B", 20, "C", 10, "E", 10⟩, ⟨"A", 10, "D", 20, "F", 20⟩], 10)] :
      List (List team_selection × Int)).length : Int) ≤ (30 + 1) * 2 ∧
    (improvements 30
      [([⟨"A", 10, "C", 10, "F", 20⟩, ⟨"B", 20, "D", 20, "E", 10⟩], 10),
      ([⟨"B", 20, "D", 20, "F", 20⟩, ⟨"A", 10, "C", 10, "E", 10⟩], 30),
      ([⟨"B", 20, "C", 10, "E", 10⟩, ⟨"A", 10, "D", 20, "F", 20⟩], 10)] : Int) ≤ 30 :=
  (search_loop_trial_bound 2
    (fun q => random_team_mapping [("A", 10), ("B", 20)] [("C", 10), ("D", 20)]
      [("E", 10), ("F", 20)] (List.replicate 2 blank_team) (fun i => i + i / 10) 5 q)).1 4 6
    [⟨"A", 10, "C", 10, "E", 10⟩, ⟨"B", 20, "D", 20, "F", 20⟩] 30
    { candidate_teams := [⟨"A", 10, "C", 10, "F", 20⟩, ⟨"B", 20, "D", 20, "E", 10⟩],
      candidate_score := 10, timeout := 0 }
    24
    [([⟨"A", 10, "C", 10, "F", 20⟩, ⟨"B", 20, "D", 20, "E", 10⟩], 10),
      ([⟨"B", 20, "D", 20, "F", 20⟩, ⟨"A", 10, "C", 10, "E", 10⟩], 30),
      ([⟨"B", 20, "C", 10, "E", 10⟩, ⟨"A", 10, "D", 20, "F", 20⟩], 10)]
    (by decide) (by decide) (by decide) (by decide)

/-! ### The roster loader -/

theorem c_string_no_nul (buffer : List Char) : ∀ c ∈ c_string buffer, c ≠ Char.ofNat 0 := by
  intro c hc
  have := List.mem_takeWhile_imp hc
  simpa using this

theorem c_string_of_no_nul (s : List Char) (h : ∀ c ∈ s, c ≠ Char.ofNat 0) : c_string s = s := by
  unfold c_string
  rw [List.takeWhile_eq_self_iff]
  intro c hc
  simpa using h c hc

/-- Line 75 leaves the string without its leading characters of the set. -/
theorem erase_leading (s : List Char) :
    (match find_first_not_of s with
      | none => []
      | some ptr => s.drop ptr) = s.dropWhile is_trim_char := by
  induction s with
  | nil => rfl
  | cons c cs ih =>
    by_cases hc : is_trim_char c = true
    · simp only [find_first_not_of, hc, if_true, List.dropWhile_cons_of_pos]
      cases hf : find_first_not_of cs with
      | none => rw [hf] at ih; simpa using ih
      | some i => rw [hf] at ih; simpa using ih
    · simp only [find_first_not_of, hc]
      simp [List.dropWhile_cons_of_neg hc]

/-- The index that line 77 finds splits the string into a body that ends in a character
outside the set and a tail of characters of the set. -/
theorem find_last_not_of_cases (s : List Char) :
    (find_last_not_of s = none ∧ ∀ c ∈ s, is_trim_char c = true) ∨
    ∃ i body c trail, find_last_not_of s = some i ∧ s = body ++ c :: trail ∧
      body.length = i ∧ is_trim_char c = false ∧ ∀ d ∈ trail, is_trim_char d = true := by
  induction s with
  | nil => left; exact ⟨rfl, by simp⟩
  | cons c cs ih =>
    rcases ih with ⟨hn, hall⟩ | ⟨i, body, d, trail, hs, heq, hlen, hd, htrail⟩
    · by_cases hc : is_trim_char c = true
      · left
        refine ⟨by simp [find_last_not_of, hn, hc], ?_⟩
        intro x hx
        rcases List.mem_cons.1 hx with h | h
        · rw [h]; exact hc
        · exact hall x h
      · right
        refine ⟨0, [], c, cs, by simp [find_last_not_of, hn, hc], rfl, rfl, by simpa using hc,
          hall⟩
    · right
      refine ⟨i + 1, c :: body, d, trail, by simp [find_last_not_of, hs], by rw [heq]; rfl,
        by simp [hlen], hd, htrail⟩

theorem head?_dropWhile_not (p : Char → Bool) (s : List Char) (c : Char)
    (h : (s.dropWhile p).head? = some c) : p c = false := by
  induction s with
  | nil => simp at h
  | cons x xs ih =>
    by_cases hx : p x = true
    · rw [List.dropWhile_cons_of_pos hx] at h
      exact ih h
    · rw [List.dropWhile_cons_of_neg hx] at h
      simp only [List.head?_cons, Option.some.injEq] at h
      rw [← h]
      simpa using hx

/-- The name after lines 72-78: the C string of the buffer without its leading and its
trailing characters of the set `" \t\r\n"`, the characters in between unchanged. -/
theorem trim_name_spec (name_buffer : List Char) :
    ∃ lead trail, c_string name_buffer = lead ++ trim_name name_buffer ++ trail ∧
      (∀ c ∈ lead, is_trim_char c = true) ∧ (∀ c ∈ trail, is_trim_char c = true) ∧
      (∀ c, (trim_name name_buffer).head? = some c → is_trim_char c = false) ∧
      (∀ c, (trim_name name_buffer).getLast? = some c → is_trim_char c = false) := by
  have hsplit : c_string name_buffer =
      (c_string name_buffer).takeWhile is_trim_char ++
        (c_string name_buffer).dropWhile is_trim_char :=
    (List.takeWhile_append_dropWhile _ _).symm
  have hlead : ∀ c ∈ (c_string name_buffer).takeWhile is_trim_char, is_trim_char c = true :=
    fun c hc => List.mem_takeWhile_imp hc
  have hhead := head?_dropWhile_not is_trim_char (c_string name_buffer)
  unfold trim_name
  simp only [erase_leading]
  generalize (c_string name_buffer).dropWhile is_trim_char = u at hsplit hhead
  rcases find_last_not_of_cases u with ⟨hn, hall⟩ | ⟨i, body, d, trail, hs, heq, hlen, hd, htrail⟩
  · have hu : u = [] := by
      cases u with
      | nil => rfl
      | cons x xs =>
        have h1 := hhead x rfl
        have h2 := hall x (List.mem_cons_self _ _)
        rw [h1] at h2
        cases h2
    subst hu
    simp only [hn]
    exact ⟨_, [], by simpa using hsplit, hlead, by simp, by simp, by simp⟩
  · simp only [hs]
    have htake : u.take (i + 1) = body ++ [d] := by
      rw [heq, ← hlen]
      simp [List.take_append_eq_append_take]
    rw [htake]
    refine ⟨_, trail, ?_, hlead, htrail, ?_, ?_⟩
    · rw [List.append_assoc, List.append_assoc]
      simpa [heq] using hsplit
    · intro c hc
      apply hhead c
      rw [heq]
      cases body with
      | nil => simpa using hc
      | cons x xs => simpa using hc
    · intro c hc
      rw [List.getLast?_concat] at hc
      cases hc
      exact hd

/-- After `table[key] = value` the table holds `value` for `key`. -/
theorem map_find_map_assign (key : String) (value : Nat) :
    ∀ table : Roster, map_find (map_assign table key value) key = some value := by
  intro table
  induction table with
  | nil => simp [map_assign, map_find]
  | cons e rest ih =>
    obtain ⟨key0, value0⟩ := e
    simp only [map_assign]
    split
    · simp [map_find]
    · split
      · simp [map_find]
      · rename_i h1 h2
        simp only [map_find]
        rw [if_neg (fun h => h2 h.symm)]
        exact ih

/-- An accepted line: when `sscanf` returns 2, the name it stored is the text of the line
before its first comma. -/
theorem sscanf_name_score_accepted (line_buffer name : List Char) (rc : Int) (score : Nat)
    (h : sscanf_name_score line_buffer = .ok (rc, name, score)) (hrc : rc = 2) :
    name = (c_string line_buffer).takeWhile (fun c => c ≠ ',') ∧ name ≠ [] ∧
    name.length < 512 ∧ c_string name = name := by
  subst hrc
  unfold sscanf_name_score at h
  simp only at h
  split at h
  · simp at h
  · split at h
    · simp at h
    · split at h
      · cases h
      · rename_i h1 h2 h3
        split at h
        · simp at h
        · split at h
          · simp at h
          · simp only [Outcome.ok.injEq, Prod.mk.injEq] at h
            refine ⟨h.2.1.symm, ?_, ?_, ?_⟩
            · rw [← h.2.1]; exact h2
            · rw [← h.2.1]; omega
            · rw [← h.2.1]
              apply c_string_of_no_nul
              intro c hc
              exact c_string_no_nul line_buffer c (List.takeWhile_subset _ hc)
          all_goals cases h

theorem takeWhile_eq_nil_of_head (p : Char → Bool) (l : List Char)
    (h : ∀ c, l.head? = some c → p c = false) : l.takeWhile p = [] := by
  cases l with
  | nil => rfl
  | cons x xs =>
    have := h x rfl
    simp [List.takeWhile_cons, this]

theorem dropWhile_eq_self_of_head (p : Char → Bool) (l : List Char)
    (h : ∀ c, l.head? = some c → p c = false) : l.dropWhile p = l := by
  cases l with
  | nil => rfl
  | cons x xs =>
    have := h x rfl
    simp [List.dropWhile_cons, this]

/-- The scan of a line whose C string is a name field, a comma and a rest. -/
theorem sscanf_name_score_split (line_buffer name after : List Char)
    (hs : c_string line_buffer = name ++ ',' :: after) (hne : name ≠ [])
    (hcomma : ∀ c ∈ name, c ≠ ',') (hlen : name.length < 512) :
    sscanf_name_score line_buffer =
      match scan_unsigned after with
      | .ok none => .ok (1, name, 0)
      | .ok (some v) => .ok (2, name, v)
      | .assert_fail l => .assert_fail l
      | .undefined => .undefined
      | .out_of_fuel => .out_of_fuel := by
  have hp : ∀ c ∈ name, (decide (c ≠ ',')) = true := by
    intro c hc
    simpa using hcomma c hc
  have htake : (name ++ ',' :: after).takeWhile (fun c => decide (c ≠ ',')) = name := by
    rw [List.takeWhile_append_of_pos hp]
    simp
  have hdrop : (name ++ ',' :: after).dropWhile (fun c => decide (c ≠ ',')) = ',' :: after := by
    rw [List.dropWhile_append_of_pos hp]
    simp
  have hnil : name ++ ',' :: after ≠ [] := by simp
  unfold sscanf_name_score
  simp only [hs, htake, hdrop, hnil, hne, if_false]
  rw [if_neg (by omega)]

theorem digits_value_cons (acc : Nat) (c : Char) (cs : List Char) :
    digits_value acc (c :: cs) = digits_value (10 * acc + (c.toNat - 48)) cs := by
  rfl

theorem digits_value_zeros (zeros : List Char) (h : ∀ c ∈ zeros, c = '0') :
    digits_value 0 zeros = 0 := by
  induction zeros with
  | nil => rfl
  | cons c cs ih =>
    have hc := h c (List.mem_cons_self _ _)
    have h48 : c.toNat - 48 = 0 := by rw [hc]; rfl
    rw [digits_value_cons, h48]
    exact ih (fun c hc => h c (List.mem_cons_of_mem _ hc))

/-- The conversion `%u` of white space, a run of zeros and a rest that does not go on with
a digit gives 0. -/
theorem scan_unsigned_zeros (ws zeros tail : List Char)
    (hws : ∀ c ∈ ws, is_space c = true) (hne : zeros ≠ []) (hz : ∀ c ∈ zeros, c = '0')
    (htail : ∀ c, tail.head? = some c → is_digit c = false) :
    scan_unsigned (ws ++ zeros ++ tail) = .ok (some 0) := by
  obtain ⟨z, zs, rfl⟩ := List.exists_cons_of_ne_nil hne
  have hz0 : z = '0' := hz z (List.mem_cons_self _ _)
  subst hz0
  have hdig : ∀ c ∈ '0' :: zs, is_digit c = true := by
    intro c hc
    rw [hz c hc]
    decide
  have hdrop : (ws ++ ('0' :: zs) ++ tail).dropWhile is_space = '0' :: zs ++ tail := by
    rw [List.append_assoc, List.dropWhile_append_of_pos hws]
    exact dropWhile_eq_self_of_head _ _ (by
      intro c hc
      simp only [List.cons_append, List.head?_cons, Option.some.injEq] at hc
      rw [← hc]
      decide)
  have htake : ('0' :: zs ++ tail).takeWhile is_digit = '0' :: zs := by
    rw [List.takeWhile_append_of_pos hdig, takeWhile_eq_nil_of_head _ _ htail,
      List.append_nil]
  have hv := digits_value_zeros ('0' :: zs) hz
  unfold scan_unsigned
  simp only [hdrop]
  have h1 : ¬ (('0' :: zs ++ tail).head? = some '-' ∨ ('0' :: zs ++ tail).head? = some '+') := by
    simp
  have h2 : ¬ (('0' :: zs ++ tail).head? = some '-') := by simp
  rw [if_neg h1]
  simp only [htake, hv]
  simp [h2]

/-- The conversion `%u` fails when, after white space, the input does not go on with a
digit or a sign. -/
theorem scan_unsigned_no_digit (ws tail : List Char)
    (hws : ∀ c ∈ ws, is_space c = true)
    (htail : ∀ c, tail.head? = some c →
      is_space c = false ∧ is_digit c = false ∧ c ≠ '-' ∧ c ≠ '+') :
    scan_unsigned (ws ++ tail) = .ok none := by
  have hdrop : (ws ++ tail).dropWhile is_space = tail := by
    rw [List.dropWhile_append_of_pos hws]
    exact dropWhile_eq_self_of_head _ _ (fun c hc => (htail c hc).1)
  have h1 : ¬ (tail.head? = some '-' ∨ tail.head? = some '+') := by
    rintro (h | h)
    · exact (htail _ h).2.2.1 rfl
    · exact (htail _ h).2.2.2 rfl
  unfold scan_unsigned
  simp only [hdrop]
  rw [if_neg h1, takeWhile_eq_nil_of_head _ _ (fun c hc => (htail c hc).2.1)]
  simp

/-- C13. A line for which `sscanf` returns 2 with the score 0 does not make
`load_style_list` fail and is skipped: the loader goes on with the table unchanged, and a
roster loaded from such a line alone is the table it started from (the empty one has no
competitor). The lines concerned include every line whose C string is a name field of
fewer than 512 characters, a comma, white space, a run of zeros and a rest that does not
go on with a digit, such as `"  Jane Doe , 0"`. -/
theorem load_style_list_skips_zero :
    (∀ (table : Roster) (line : String) (lines : List String) (name : List Char),
      sscanf_name_score line.toList = .ok (2, name, 0) →
      load_style_list table (line :: lines) = load_style_list table lines) ∧
    (∀ (table : Roster) (line : String) (name : List Char),
      sscanf_name_score line.toList = .ok (2, name, 0) →
      load_style_list table [line] = .ok table) ∧
    (∀ (line : String) (name ws zeros tail : List Char),
      c_string line.toList = name ++ ',' :: (ws ++ zeros ++ tail) →
      name ≠ [] → (∀ c ∈ name, c ≠ ',') → name.length < 512 →
      (∀ c ∈ ws, is_space c = true) → zeros ≠ [] → (∀ c ∈ zeros, c = '0') →
      (∀ c, tail.head? = some c → is_digit c = false) →
      sscanf_name_score line.toList = .ok (2, name, 0)) ∧
    load_style_list [] ["  Jane Doe , 0"] = .ok [] ∧
    load_style_list [("Al", 7)] ["  Jane Doe , 0\n", "Bo, 3\n"] =
      .ok [("Al", 7), ("Bo", 3)] := by
  have key : ∀ (table : Roster) (line : String) (lines : List String) (name : List Char),
      sscanf_name_score line.toList = .ok (2, name, 0) →
      load_style_list table (line :: lines) = load_style_list table lines := by
    intro table line lines name h
    simp only [load_style_list, h]
    simp
  refine ⟨key, ?_, ?_, by decide, by decide⟩
  · intro table line name h
    rw [key table line [] name h]
    rfl
  · intro line name ws zeros tail hs hne hcomma hlen hws hz hzeros htail
    rw [sscanf_name_score_split _ name _ hs hne hcomma hlen,
      scan_unsigned_zeros ws zeros tail hws hz hzeros htail]

/-- Witness of C13: the line `"  Jane Doe , 0"` followed by a line for Bo, loaded into a
table that holds Al. -/
theorem load_style_list_skips_zero_witness :
    load_style_list [("Al", 7)] ["  Jane Doe , 0\n", "Bo, 3\n"] =
      load_style_list [("Al", 7)] ["Bo, 3\n"] :=
  load_style_list_skips_zero.1 [("Al", 7)] "  Jane Doe , 0\n" ["Bo, 3\n"]
    "  Jane Doe ".toList (by decide)

/-- C14. A line for which `sscanf` does not return 2 makes `load_style_list` fail in the
assertion of line 69, whatever the table and the lines that follow, so no entry is added
for it. This is so for every line that begins with a comma (no name field), and for every
line whose C string is a name field of fewer than 512 characters followed by nothing, or
by a comma, white space and a rest that does not go on with a digit or a sign (the score
cannot be parsed), such as `"Bob, abc"`. -/
theorem load_style_list_rejects_malformed :
    (∀ (table : Roster) (line : String) (lines : List String) (rc : Int) (name : List Char)
      (score : Nat),
      sscanf_name_score line.toList = .ok (rc, name, score) → rc ≠ 2 →
      load_style_list table (line :: lines) = .assert_fail 69) ∧
    (∀ (table : Roster) (line : String) (lines : List String) (tail : List Char),
      c_string line.toList = ',' :: tail →
      load_style_list table (line :: lines) = .assert_fail 69) ∧
    (∀ (table : Roster) (line : String) (lines : List String) (name ws tail : List Char),
      c_string line.toList = name ++ ',' :: (ws ++ tail) →
      name ≠ [] → (∀ c ∈ name, c ≠ ',') → name.length < 512 →
      (∀ c ∈ ws, is_space c = true) →
      (∀ c, tail.head? = some c →
        is_space c = false ∧ is_digit c = false ∧ c ≠ '-' ∧ c ≠ '+') →
      load_style_list table (line :: lines) = .assert_fail 69) ∧
    (∀ (table : Roster) (line : String) (lines : List String),
      c_string line.toList ≠ [] → (∀ c ∈ c_string line.toList, c ≠ ',') →
      (c_string line.toList).length < 512 →
      load_style_list table (line :: lines) = .assert_fail 69) ∧
    load_style_list [] ["Bob, abc"] = .assert_fail 69 := by
  have key : ∀ (table : Roster) (line : String) (lines : List String) (rc : Int)
      (name : List Char) (score : Nat),
      sscanf_name_score line.toList = .ok (rc, name, score) → rc ≠ 2 →
      load_style_list table (line :: lines) = .assert_fail 69 := by
    intro table line lines rc name score h hrc
    simp only [load_style_list, h]
    simp [hrc]
  refine ⟨key, ?_, ?_, ?_, by decide⟩
  · intro table line lines tail hs
    apply key table line lines 0 [] 0 _ (by decide)
    unfold sscanf_name_score
    simp only [hs]
    simp
  · intro table line lines name ws tail hs hne hcomma hlen hws htail
    apply key table line lines 1 name 0 _ (by decide)
    rw [sscanf_name_score_split _ name _ hs hne hcomma hlen,
      scan_unsigned_no_digit ws tail hws htail]
  · intro table line lines hne hcomma hlen
    apply key table line lines 1 (c_string line.toList) 0 _ (by decide)
    have hp : ∀ c ∈ c_string line.toList, (decide (c ≠ ',')) = true := by
      intro c hc
      simpa using hcomma c hc
    have htake : (c_string line.toList).takeWhile (fun c => decide (c ≠ ',')) =
        c_string line.toList := List.takeWhile_eq_self_iff.2 hp
    have hdrop : (c_string line.toList).dropWhile (fun c => decide (c ≠ ',')) = [] :=
      List.dropWhile_eq_nil_iff.2 hp
    unfold sscanf_name_score
    simp only [htake, hdrop, hne, if_false]
    rw [if_neg (by omega)]

/-- Witness of C14: the line `"Bob, abc"` in front of a well-formed line. -/
theorem load_style_list_rejects_malformed_witness :
    load_style_list [("Al", 7)] ["Bob, abc\n", "Bo, 3\n"] = .assert_fail 69 :=
  load_style_list_rejects_malformed.1 [("Al", 7)] "Bob, abc\n" ["Bo, 3\n"] 1 "Bob".toList 0
    (by decide) (by decide)

/-- C15. For an accepted line (`sscanf` returns 2) with a non-zero score,
`load_style_list` assigns the score to a key in the table and goes on; after the
assignment the table holds the parsed score for the key. The name `sscanf` stored is the
text of the line before its first comma, and the key is this name without its leading and
trailing characters of the set space, tab, CR, LF, the characters in between unchanged:
the key neither begins nor ends with a character of the set. -/
theorem load_style_list_stores_trimmed (table : Roster) (line : String)
    (lines : List String) (name : List Char) (score : Nat)
    (h : sscanf_name_score line.toList = .ok (2, name, score)) (hscore : score ≠ 0) :
    load_style_list table (line :: lines) =
      load_style_list (map_assign table (String.mk (trim_name name)) score) lines ∧
    map_find (map_assign table (String.mk (trim_name name)) score)
      (String.mk (trim_name name)) = some score ∧
    name = (c_string line.toList).takeWhile (fun c => c ≠ ',') ∧
    ∃ lead trail, name = lead ++ trim_name name ++ trail ∧
      (∀ c ∈ lead, is_trim_char c = true) ∧ (∀ c ∈ trail, is_trim_char c = true) ∧
      (∀ c, (trim_name name).head? = some c → is_trim_char c = false) ∧
      (∀ c, (trim_name name).getLast? = some c → is_trim_char c = false) := by
  obtain ⟨hname, -, -, hc⟩ := sscanf_name_score_accepted _ _ _ _ h rfl
  refine ⟨?_, map_find_map_assign _ _ _, hname, ?_⟩
  · simp only [load_style_list, h]
    simp [hscore]
  · obtain ⟨lead, trail, h1, h2, h3, h4, h5⟩ := trim_name_spec name
    rw [hc] at h1
    exact ⟨lead, trail, h1, h2, h3, h4, h5⟩

/-- Witness of C15: the line `"  Jane Doe , 285"` is stored under the key `"Jane Doe"`. -/
theorem load_style_list_stores_trimmed_witness :
    load_style_list [("Al", 7)] ["  Jane Doe , 285\n"] =
      load_style_list (map_assign [("Al", 7)] (String.mk (trim_name "  Jane Doe ".toList)) 285)
        [] ∧
    map_find (map_assign [("Al", 7)] (String.mk (trim_name "  Jane Doe ".toList)) 285)
      (String.mk (trim_name "  Jane Doe ".toList)) = some 285 ∧
    "  Jane Doe ".toList =
      (c_string "  Jane Doe , 285\n".toList).takeWhile (fun c => c ≠ ',') ∧
    ∃ lead trail, "  Jane Doe ".toList = lead ++ trim_name "  Jane Doe ".toList ++ trail ∧
      (∀ c ∈ lead, is_trim_char c = true) ∧ (∀ c ∈ trail, is_trim_char c = true) ∧
      (∀ c, (trim_name "  Jane Doe ".toList).head? = some c → is_trim_char c = false) ∧
      (∀ c, (trim_name "  Jane Doe ".toList).getLast? = some c → is_trim_char c = false) :=
  load_style_list_stores_trimmed [("Al", 7)] "  Jane Doe , 285\n" [] "  Jane Doe ".toList 285
    (by decide) (by decide)

end TeamBuilder
